import Mathlib

/-!
Verification of the Wasm binary encoder `BinaryTransform.cpp` (libyul/backends/wasm).

The development shallowly embeds the encoder: byte vectors become `List Nat`
(every emitted byte is `< 256`), the C++ `std::map`-based index maps become
association lists with overwrite-insert (the encoder never iterates them, with
the single exception of the type-section map, which is modelled as a list sorted
by the comparator of `std::map<pair<bytes, bytes>, ...>`), and the
assertion-style fatal errors (`yulAssert`, `at`, `boost::get`) become
`Except String`.
-/

namespace YulWasm

set_option maxRecDepth 4000

abbrev Bytes := List Nat

/-- Recursion core of `lebEncode`, driven by a fuel counter so that the
function stays kernel-computable; `lebEncode_eq` below proves that with the
fuel chosen in `lebEncode` this is exactly the source's recursion. -/
def lebEncodeGo : Nat → Nat → Bytes
  | 0, n => [n]
  | fuel + 1, n =>
    if 0x7f < n then (0x80 + n % 0x80) :: lebEncodeGo fuel (n / 0x80)
    else [n]

/-- Mirrors `lebEncode` (BinaryTransform.cpp:185): unsigned LEB128, emitting
7-bit groups low-first, continuation bit `0x80` on all groups but the last.
The C++ loop `while (_n > 0x7f)` is rendered as recursion on `_n >>= 7`
(for unsigned `_n`, `_n >> 7 = _n / 0x80`); see `lebEncode_eq`. -/
def lebEncode (n : Nat) : Bytes := lebEncodeGo (n + 1) n

theorem lebEncodeGo_congr : ∀ f₁ f₂ n : Nat, n < f₁ → n < f₂ →
    lebEncodeGo f₁ n = lebEncodeGo f₂ n := by
  intro f₁
  induction f₁ with
  | zero => omega
  | succ f₁ ih =>
    intro f₂ n h1 h2
    match f₂, h2 with
    | f₂ + 1, h2 =>
      simp only [lebEncodeGo]
      by_cases h : 0x7f < n
      · rw [if_pos h, if_pos h,
          ih f₂ (n / 0x80) (by omega) (by omega)]
      · rw [if_neg h, if_neg h]

/-- The defining equation of `lebEncode`, matching the C++ loop body. -/
theorem lebEncode_eq (n : Nat) :
    lebEncode n =
      if 0x7f < n then (0x80 + n % 0x80) :: lebEncode (n / 0x80) else [n] := by
  show lebEncodeGo (n + 1) n = _
  simp only [lebEncodeGo]
  by_cases h : 0x7f < n
  · rw [if_pos h, if_pos h,
      lebEncodeGo_congr n (n / 0x80 + 1) (n / 0x80) (by omega) (by omega)]
    rfl
  · rw [if_neg h, if_neg h]

/-- Recursion core of `lebEncodeSigned`, fuel-driven for kernel
computability; `lebEncodeSigned_eq` recovers the source's exact recursion. -/
def lebEncodeSignedGo : Nat → Int → Bytes
  | 0, n => [n.toNat % 256]
  | fuel + 1, n =>
    if 0 ≤ n ∧ n < 0x40 then [n.toNat % 256]
    else if 0 < -n ∧ -n < 0x40 then [(n + 0x80).toNat % 256]
    else (0x80 + (n % 0x80).toNat) :: lebEncodeSignedGo fuel (n.tdiv 0x80)

/-- Mirrors `lebEncodeSigned` (BinaryTransform.cpp:197) exactly, including the
C++ truncating division `_n / 0x80` (`Int.tdiv`) in the recursive case and the
branch conditions `_n >= 0 && _n < 0x40` / `-_n > 0 && -_n < 0x40`.
`_n & 0x7f` on a two's-complement `int64_t` is `_n.emod 0x80` (Lean's `%`);
see `lebEncodeSigned_eq`. -/
def lebEncodeSigned (n : Int) : Bytes := lebEncodeSignedGo (n.natAbs + 1) n

theorem lebEncodeSignedGo_congr : ∀ (f₁ f₂ : Nat) (n : Int),
    n.natAbs < f₁ → n.natAbs < f₂ →
    lebEncodeSignedGo f₁ n = lebEncodeSignedGo f₂ n := by
  intro f₁
  induction f₁ with
  | zero => omega
  | succ f₁ ih =>
    intro f₂ n h1 h2
    match f₂, h2 with
    | f₂ + 1, h2 =>
      simp only [lebEncodeSignedGo]
      by_cases hb1 : 0 ≤ n ∧ n < 0x40
      · rw [if_pos hb1, if_pos hb1]
      · rw [if_neg hb1, if_neg hb1]
        by_cases hb2 : 0 < -n ∧ -n < 0x40
        · rw [if_pos hb2, if_pos hb2]
        · rw [if_neg hb2, if_neg hb2]
          have habs : (n.tdiv 0x80).natAbs = n.natAbs / 0x80 :=
            Int.natAbs_tdiv n 0x80
          rw [ih f₂ (n.tdiv 0x80) (by omega) (by omega)]

/-- The defining equation of `lebEncodeSigned`, matching the C++ source. -/
theorem lebEncodeSigned_eq (n : Int) :
    lebEncodeSigned n =
      if 0 ≤ n ∧ n < 0x40 then [n.toNat % 256]
      else if 0 < -n ∧ -n < 0x40 then [(n + 0x80).toNat % 256]
      else (0x80 + (n % 0x80).toNat) :: lebEncodeSigned (n.tdiv 0x80) := by
  show lebEncodeSignedGo (n.natAbs + 1) n = _
  simp only [lebEncodeSignedGo]
  by_cases hb1 : 0 ≤ n ∧ n < 0x40
  · rw [if_pos hb1, if_pos hb1]
  · rw [if_neg hb1, if_neg hb1]
    by_cases hb2 : 0 < -n ∧ -n < 0x40
    · rw [if_pos hb2, if_pos hb2]
    · rw [if_neg hb2, if_neg hb2]
      have habs : (n.tdiv 0x80).natAbs = n.natAbs / 0x80 :=
        Int.natAbs_tdiv n 0x80
      rw [lebEncodeSignedGo_congr n.natAbs ((n.tdiv 0x80).natAbs + 1)
        (n.tdiv 0x80) (by omega) (by omega)]
      rfl

/-- Standard unsigned LEB128 decoder: 7 payload bits per byte, little-endian.
This is the reference decoder the spec's round-trip property is stated against. -/
def lebDecode : Bytes → Nat
  | [] => 0
  | b :: bs => b % 0x80 + 0x80 * lebDecode bs

/-- Standard signed LEB128 decoder: 7 payload bits per byte, little-endian,
with sign extension from bit 6 of the final byte. -/
def lebDecodeSigned : Bytes → Int
  | [] => 0
  | [b] => if b % 0x80 < 0x40 then ((b % 0x80 : Nat) : Int)
           else ((b % 0x80 : Nat) : Int) - 0x80
  | b :: bs => ((b % 0x80 : Nat) : Int) + 0x80 * lebDecodeSigned bs

/-- Checks the LEB128 continuation-bit discipline: the continuation bit `0x80`
is set on every byte except the last, and clear on the last. -/
def lebGroupsOk : Bytes → Bool
  | [] => false
  | [b] => decide (b < 0x80)
  | b :: bs => decide (0x80 ≤ b) && lebGroupsOk bs

theorem lebEncode_small {n : Nat} (h : n ≤ 0x7f) : lebEncode n = [n] := by
  rw [lebEncode_eq, if_neg (by omega)]

theorem lebEncode_step {n : Nat} (h : 0x7f < n) :
    lebEncode n = (0x80 + n % 0x80) :: lebEncode (n / 0x80) := by
  rw [lebEncode_eq, if_pos h]

theorem lebEncode_ne_nil (n : Nat) : lebEncode n ≠ [] := by
  rw [lebEncode_eq]
  split <;> simp

theorem lebDecode_lebEncode (n : Nat) : lebDecode (lebEncode n) = n := by
  induction n using Nat.strong_induction_on with
  | _ n ih =>
    by_cases h : 0x7f < n
    · rw [lebEncode_step h]
      have := ih (n / 0x80) (Nat.div_lt_self (by omega) (by norm_num))
      simp only [lebDecode, this]
      omega
    · rw [lebEncode_small (by omega)]
      simp only [lebDecode]
      omega

theorem lebEncode_singleton_iff (n : Nat) :
    (lebEncode n).length = 1 ↔ n ≤ 0x7f := by
  by_cases h : 0x7f < n
  · rw [lebEncode_step h]
    have := lebEncode_ne_nil (n / 0x80)
    constructor
    · intro hl
      simp only [List.length_cons] at hl
      exact absurd (List.length_eq_zero.mp (by omega)) this
    · omega
  · rw [lebEncode_small (by omega)]
    simp
    omega

theorem lebGroupsOk_lebEncode (n : Nat) : lebGroupsOk (lebEncode n) = true := by
  induction n using Nat.strong_induction_on with
  | _ n ih =>
    by_cases h : 0x7f < n
    · rw [lebEncode_step h]
      have hrec := ih (n / 0x80) (Nat.div_lt_self (by omega) (by norm_num))
      rcases hne : lebEncode (n / 0x80) with _ | ⟨b, bs⟩
      · exact absurd hne (lebEncode_ne_nil _)
      · rw [hne] at hrec
        simp only [lebGroupsOk, hrec, Bool.and_true]
        exact decide_eq_true (by omega)
    · rw [lebEncode_small (by omega)]
      simp only [lebGroupsOk]
      exact decide_eq_true (by omega)

/-- C7: for every unsigned 64-bit integer `n`, decoding `lebEncode n` as
standard unsigned LEB128 yields `n`; the output consists of 7-bit little-endian
groups with the continuation bit set on all bytes but the last; it is a single
byte exactly when `n ∈ [0, 127]`; and `lebEncode 0 = [0x00]`. -/
theorem lebEncode_unsigned_roundTrip (n : Nat) (h : n < 2 ^ 64) :
    lebDecode (lebEncode n) = n ∧
    lebGroupsOk (lebEncode n) = true ∧
    ((lebEncode n).length = 1 ↔ n ≤ 0x7f) ∧
    lebEncode 0 = [0] := by
  refine ⟨lebDecode_lebEncode n, lebGroupsOk_lebEncode n, lebEncode_singleton_iff n, ?_⟩
  rw [lebEncode_small (by norm_num)]

/-- Witness for C7 at `n = 300`: `lebEncode 300 = [0xac, 0x02]`, which decodes
back to `300`, is two bytes, and has the continuation discipline. -/
theorem lebEncode_unsigned_roundTrip_witness :
    lebDecode (lebEncode 300) = 300 ∧ lebEncode 300 = [0xac, 2] := by
  refine ⟨(lebEncode_unsigned_roundTrip 300 (by norm_num)).1, ?_⟩
  rw [lebEncode_step (by norm_num), lebEncode_small (by norm_num)]

/-- C1: the signed encoder does not implement standard signed LEB128. At
`n = -64` it emits the two bytes `[0xc0, 0x00]` (the claim says `[-64, 63]`
is the single-byte range) and standard signed LEB128 decoding of that output
yields `+64`, not `-64`; at `n = -129` it emits `[0xff, 0x7f]`, which decodes
to `-1`. The culprit is the truncating division `_n / 0x80` where standard
signed LEB128 requires the arithmetic right-shift (floor division). -/
theorem lebEncodeSigned_sleb128_bug :
    lebEncodeSigned (-64) = [0xc0, 0] ∧
    (lebEncodeSigned (-64)).length ≠ 1 ∧
    lebDecodeSigned (lebEncodeSigned (-64)) = 64 ∧
    lebEncodeSigned (-129) = [0xff, 0x7f] ∧
    lebDecodeSigned (lebEncodeSigned (-129)) = -1 := by
  decide

/-- C10: `lebEncodeSigned` is total on every signed 64-bit input, including
`INT64_MIN`: it always produces at least one byte, the recursive argument
`_n / 0x80` (truncating division) stays inside the int64 range (no overflow),
and whenever neither single-byte base case applies the recursive argument
strictly decreases in absolute value. -/
theorem lebEncodeSigned_total (n : Int) (h1 : -(2 ^ 63) ≤ n) (h2 : n < 2 ^ 63) :
    lebEncodeSigned n ≠ [] ∧
    -(2 ^ 63) ≤ n.tdiv 0x80 ∧ n.tdiv 0x80 < 2 ^ 63 ∧
    (¬(0 ≤ n ∧ n < 0x40) → ¬(0 < -n ∧ -n < 0x40) →
      (n.tdiv 0x80).natAbs < n.natAbs) := by
  have habs : (n.tdiv 0x80).natAbs = n.natAbs / 0x80 := Int.natAbs_tdiv n 0x80
  refine ⟨?_, by omega, by omega, ?_⟩
  · rw [lebEncodeSigned_eq]
    split
    · simp
    · split <;> simp
  · intro hc1 hc2
    have h64 : 64 ≤ n.natAbs := by omega
    rw [habs]
    exact Nat.div_lt_self (by omega) (by norm_num)

/-- Witness for C10 at `n = INT64_MIN = -2^63`: both hypotheses hold there and
the strict decrease applies (neither base case matches `-2^63`). -/
theorem lebEncodeSigned_total_witness :
    lebEncodeSigned (-(2 ^ 63)) ≠ [] ∧
    ((-(2 ^ 63) : Int).tdiv 0x80).natAbs < ((-(2 ^ 63) : Int)).natAbs := by
  have h := lebEncodeSigned_total (-(2 ^ 63)) (by norm_num) (by norm_num)
  exact ⟨h.1, h.2.2.2 (by omega) (by omega)⟩

/-! ### Association-list maps

The encoder's `std::map<string, T>` members (`m_functions`, `m_globals`,
`m_locals`, `m_functionTypes`, `m_subModulePosAndSize`) are only ever used for
keyed lookup and for `size()`; none of them is iterated. They are therefore
modelled as association lists with overwrite-on-insert, which has the same
observable behaviour (`size` = number of distinct keys). -/

def lookupA {α : Type} : List (String × α) → String → Option α
  | [], _ => none
  | (k, v) :: rest, key => if k = key then some v else lookupA rest key

def insertA {α : Type} : List (String × α) → String → α → List (String × α)
  | [], key, val => [(key, val)]
  | (k, v) :: rest, key, val =>
    if k = key then (k, val) :: rest else (k, v) :: insertA rest key val

/-- `charsBeginWith needle hay`: `needle` occurs at the start of `hay`. -/
def charsBeginWith : List Char → List Char → Bool
  | [], _ => true
  | _ :: _, [] => false
  | a :: as, b :: bs => a == b && charsBeginWith as bs

/-- `charsContain needle hay`: `needle` occurs somewhere inside `hay`. -/
def charsContain (needle : List Char) : List Char → Bool
  | [] => needle.isEmpty
  | b :: bs => charsBeginWith needle (b :: bs) || charsContain needle bs

/-- Mirrors `string::find(needle) != string::npos`. -/
def strContains (hay needle : String) : Bool := charsContain needle.data hay.data

/-- Mirrors the process-wide constant `builtins` table
(BinaryTransform.cpp:95-178): builtin name to single opcode byte. -/
def builtins : List (String × Nat) := [
  ("i32.load", 0x28), ("i64.load", 0x29),
  ("i32.load8_s", 0x2c), ("i32.load8_u", 0x2d),
  ("i32.load16_s", 0x2e), ("i32.load16_u", 0x2f),
  ("i64.load8_s", 0x30), ("i64.load8_u", 0x31),
  ("i64.load16_s", 0x32), ("i64.load16_u", 0x33),
  ("i64.load32_s", 0x34), ("i64.load32_u", 0x35),
  ("i32.store", 0x36), ("i64.store", 0x37),
  ("i32.store8", 0x3a), ("i32.store16", 0x3b),
  ("i64.store8", 0x3c), ("i64.store16", 0x3d), ("i64.store32", 0x3e),
  ("memory.size", 0x3f), ("memory.grow", 0x40),
  ("i32.eqz", 0x45), ("i32.eq", 0x46), ("i32.ne", 0x47),
  ("i32.lt_s", 0x48), ("i32.lt_u", 0x49), ("i32.gt_s", 0x4a), ("i32.gt_u", 0x4b),
  ("i32.le_s", 0x4c), ("i32.le_u", 0x4d), ("i32.ge_s", 0x4e), ("i32.ge_u", 0x4f),
  ("i64.eqz", 0x50), ("i64.eq", 0x51), ("i64.ne", 0x52),
  ("i64.lt_s", 0x53), ("i64.lt_u", 0x54), ("i64.gt_s", 0x55), ("i64.gt_u", 0x56),
  ("i64.le_s", 0x57), ("i64.le_u", 0x58), ("i64.ge_s", 0x59), ("i64.ge_u", 0x5a),
  ("i32.clz", 0x67), ("i32.ctz", 0x68), ("i32.popcnt", 0x69),
  ("i32.add", 0x6a), ("i32.sub", 0x6b), ("i32.mul", 0x6c),
  ("i32.div_s", 0x6d), ("i32.div_u", 0x6e), ("i32.rem_s", 0x6f), ("i32.rem_u", 0x70),
  ("i32.and", 0x71), ("i32.or", 0x72), ("i32.xor", 0x73),
  ("i32.shl", 0x74), ("i32.shr_s", 0x75), ("i32.shr_u", 0x76),
  ("i32.rotl", 0x77), ("i32.rotr", 0x78),
  ("i64.clz", 0x79), ("i64.ctz", 0x7a), ("i64.popcnt", 0x7b),
  ("i64.add", 0x7c), ("i64.sub", 0x7d), ("i64.mul", 0x7e),
  ("i64.div_s", 0x7f), ("i64.div_u", 0x80), ("i64.rem_s", 0x81), ("i64.rem_u", 0x82),
  ("i64.and", 0x83), ("i64.or", 0x84), ("i64.xor", 0x85),
  ("i64.shl", 0x86), ("i64.shr_s", 0x87), ("i64.shr_u", 0x88),
  ("i64.rotl", 0x89), ("i64.rotr", 0x8a),
  ("i32.wrap_i64", 0xa7), ("i64.extend_i32_s", 0xac), ("i64.extend_i32_u", 0xad)]

/-! ### The input data model

Modelled from the spec: the structured Wasm module AST (`wasm::Module` and
friends, declared in `libyul/backends/wasm/WasmAST.h`, which is not under
`src/`) following spec section 3; the sub-module mapping is modelled as an
association list iterated in list order (the spec: "iteration order is the
mapping's stable order"). -/

/-- Modelled from the spec: a function import (external module name, external
name, unique internal name, parameter type names, optional return type name). -/
structure FunctionImport where
  module : String
  externalName : String
  internalName : String
  paramTypes : List String
  returnType : Option String

/-- Modelled from the spec: a local variable declaration. -/
structure VariableDeclaration where
  variableName : String

/-- Modelled from the spec: a global variable declaration (implicitly a
mutable, zero-initialised `i64`). -/
structure GlobalVariableDeclaration where
  variableName : String

/-- Modelled from the spec: the polymorphic expression tree (spec section 3). -/
inductive Expression where
  | literal (value : Int)
  | stringLiteral (value : String)
  | localVariable (name : String)
  | globalVariable (name : String)
  | builtinCall (functionName : String) (arguments : List Expression)
  | functionCall (functionName : String) (arguments : List Expression)
  | localAssignment (variableName : String) (value : Expression)
  | globalAssignment (variableName : String) (value : Expression)
  | ifStmt (condition : Expression) (statements : List Expression)
           (elseStatements : Option (List Expression))
  | loop (labelName : String) (statements : List Expression)
  | breakStmt (label : String)
  | breakIf (label : String)
  | block (statements : List Expression)

/-- Modelled from the spec: a function definition with name, ordered parameter
names, ordered locals, an optional single `i64` return and a body. -/
structure FunctionDefinition where
  name : String
  parameterNames : List String
  locals : List VariableDeclaration
  returns : Bool
  body : List Expression

/-- Modelled from the spec: a module - globals, function imports, function
definitions and the mapping from sub-module name to sub-module. -/
inductive Module where
  | mk (globals : List GlobalVariableDeclaration)
       (imports : List FunctionImport)
       (functions : List FunctionDefinition)
       (subModules : List (String × Module))

def Module.globals : Module → List GlobalVariableDeclaration
  | .mk g _ _ _ => g

def Module.imports : Module → List FunctionImport
  | .mk _ i _ _ => i

def Module.functions : Module → List FunctionDefinition
  | .mk _ _ f _ => f

def Module.subModules : Module → List (String × Module)
  | .mk _ _ _ s => s

/-- The encoder-internal name-to-index state of a `BinaryTransform` instance,
as visible to expression lowering: `m_functions`, `m_globals`, `m_locals` and
`m_subModulePosAndSize`. (`m_labels` is omitted: it is pushed and popped but
never read, since `Break`/`BreakIf` lowering is unimplemented.) -/
structure Env where
  functions : List (String × Nat)
  globals : List (String × Nat)
  locals : List (String × Nat)
  subModulePosAndSize : List (String × (Nat × Nat))

mutual

/-- Mirrors the `BinaryTransform::operator()` visitor over `Expression`
(BinaryTransform.cpp:242-371). Fatal `yulAssert` failures, `map::at` on a
missing key and `boost::get` on the wrong variant become `Except.error`. -/
def lowerExpr (env : Env) : Expression → Except String Bytes
  | .literal v => .ok (0x42 :: lebEncodeSigned v)
  | .stringLiteral _ => .error "String literals not yet implemented"
  | .localVariable name =>
      match lookupA env.locals name with
      | some i => .ok (0x20 :: lebEncode i)
      | none => .error ("local " ++ name ++ " out of range")
  | .globalVariable name =>
      match lookupA env.globals name with
      | some i => .ok (0x23 :: lebEncode i)
      | none => .error ("global " ++ name ++ " out of range")
  | .builtinCall name args =>
      if name = "dataoffset" then
        match args with
        | .stringLiteral s :: _ =>
            match lookupA env.subModulePosAndSize s with
            | some ps => .ok (0x42 :: lebEncodeSigned (ps.1 : Int))
            | none => .error ("sub-module " ++ s ++ " out of range")
        | _ => .error "bad get: argument 0 is not a string literal"
      else if name = "datasize" then
        match args with
        | .stringLiteral s :: _ =>
            match lookupA env.subModulePosAndSize s with
            | some ps => .ok (0x42 :: lebEncodeSigned (ps.2 : Int))
            | none => .error ("sub-module " ++ s ++ " out of range")
        | _ => .error "bad get: argument 0 is not a string literal"
      else
        match lowerExprs env args with
        | .error e => .error e
        | .ok argBytes =>
          if name = "unreachable" then .ok [0x00]
          else
            match lookupA builtins name with
            | some op =>
                .ok (argBytes ++ [op] ++
                  (if strContains name ".load" || strContains name ".store"
                   then [3, 0] else []))
            | none => .error ("Builtin " ++ name ++ " not found")
  | .functionCall name args =>
      match lowerExprs env args with
      | .error e => .error e
      | .ok argBytes =>
        match lookupA env.functions name with
        | some idx => .ok (argBytes ++ [0x10, idx % 256])
        | none => .error ("function " ++ name ++ " out of range")
  | .localAssignment name value =>
      match lowerExpr env value with
      | .error e => .error e
      | .ok vb =>
        match lookupA env.locals name with
        | some i => .ok (vb ++ 0x21 :: lebEncode i)
        | none => .error ("local " ++ name ++ " out of range")
  | .globalAssignment name value =>
      match lowerExpr env value with
      | .error e => .error e
      | .ok vb =>
        match lookupA env.globals name with
        | some i => .ok (vb ++ 0x24 :: lebEncode i)
        | none => .error ("global " ++ name ++ " out of range")
  | .ifStmt cond ts es =>
      match lowerExpr env cond with
      | .error e => .error e
      | .ok cb =>
        match lowerExprs env ts with
        | .error e => .error e
        | .ok tb =>
          match es with
          | some els =>
            match lowerExprs env els with
            | .error e => .error e
            | .ok eb => .ok (cb ++ [0x04, 0x40] ++ tb ++ [0x05] ++ eb ++ [0x0b])
          | none => .ok (cb ++ [0x04, 0x40] ++ tb ++ [0x0b])
  | .loop _ body =>
      match lowerExprs env body with
      | .error e => .error e
      | .ok bb => .ok ([0x03, 0x40] ++ bb ++ [0x0b])
  | .breakStmt _ => .error "br not yet implemented."
  | .breakIf _ => .error "br_if not yet implemented."
  | .block body =>
      match lowerExprs env body with
      | .error e => .error e
      | .ok bb => .ok ([0x02, 0x40] ++ bb ++ [0x0b])

/-- Mirrors `BinaryTransform::visit(vector<Expression>)`: lowers a statement
sequence left to right, concatenating the byte slices. -/
def lowerExprs (env : Env) : List Expression → Except String Bytes
  | [] => .ok []
  | e :: es =>
      match lowerExpr env e with
      | .error err => .error err
      | .ok b =>
        match lowerExprs env es with
        | .error err => .error err
        | .ok bs => .ok (b ++ bs)

end

/-! ### Section emitters -/

/-- Mirrors `BinaryTransform::prefixSize`: LEB128 of the byte length, then the
bytes. -/
def prefixSize (data : Bytes) : Bytes := lebEncode data.length ++ data

/-- Mirrors `BinaryTransform::encode(string)`: LEB128-length-prefixed raw
bytes of the name (names are ASCII; a char is modelled as its code point). -/
def encode (name : String) : Bytes :=
  lebEncode name.length ++ name.data.map Char.toNat

/-- Mirrors `BinaryTransform::encodeType`: `"i32" ↦ 0x7f`, `"i64" ↦ 0x7e`,
anything else is a fatal `yulAssert(false, "")`. -/
def encodeType (typeName : String) : Except String Nat :=
  if typeName = "i32" then .ok 0x7f
  else if typeName = "i64" then .ok 0x7e
  else .error ""

/-- Mirrors `BinaryTransform::encodeTypes`. -/
def encodeTypes : List String → Except String Bytes
  | [] => .ok []
  | t :: ts =>
      match encodeType t with
      | .error e => .error e
      | .ok b =>
        match encodeTypes ts with
        | .error e => .error e
        | .ok bs => .ok (b :: bs)

/-- A function signature key: `(parameter type bytes, return type bytes)`,
the `BinaryTransform::Type` pair. -/
abbrev Ty := Bytes × Bytes

/-- Mirrors `BinaryTransform::typeOf(FunctionImport)`. -/
def typeOfImport (imp : FunctionImport) : Except String Ty :=
  match encodeTypes imp.paramTypes with
  | .error e => .error e
  | .ok ps =>
    match encodeTypes (match imp.returnType with
                       | some r => [r]
                       | none => []) with
    | .error e => .error e
    | .ok rs => .ok (ps, rs)

/-- Mirrors `BinaryTransform::typeOf(FunctionDefinition)`: every parameter is
`"i64"` (`0x7e`) and the return list is `"i64"` repeated `returns ? 1 : 0`
times. -/
def typeOfFun (f : FunctionDefinition) : Ty :=
  (List.replicate f.parameterNames.length 0x7e,
   List.replicate (if f.returns then 1 else 0) 0x7e)

/-- Lexicographic order on byte sequences, the `std::vector<uint8_t>`
`operator<`. -/
def bytesLt : Bytes → Bytes → Bool
  | [], [] => false
  | [], _ :: _ => true
  | _ :: _, [] => false
  | a :: as, b :: bs => if a < b then true else if b < a then false else bytesLt as bs

/-- Lexicographic order on signature pairs, the `std::pair` `operator<` used
as the comparator of the `map<Type, vector<string>>` in `typeSection`. -/
def tyLt (a b : Ty) : Bool :=
  if bytesLt a.1 b.1 then true
  else if bytesLt b.1 a.1 then false
  else bytesLt a.2 b.2

/-- One `types[typeOf(...)].emplace_back(name)` step on the sorted
association list that models `map<Type, vector<string>>`. -/
def insertTypes : List (Ty × List String) → Ty → String → List (Ty × List String)
  | [], t, n => [(t, [n])]
  | (t', ns) :: rest, t, n =>
    if tyLt t t' then (t, [n]) :: (t', ns) :: rest
    else if tyLt t' t then (t', ns) :: insertTypes rest t n
    else (t', ns ++ [n]) :: rest

/-- The import half of the `types` map construction in
`BinaryTransform::typeSection` (fails on an unencodable import type). -/
def collectImportTypes : List (Ty × List String) → List FunctionImport →
    Except String (List (Ty × List String))
  | acc, [] => .ok acc
  | acc, imp :: rest =>
    match typeOfImport imp with
    | .error e => .error e
    | .ok t => collectImportTypes (insertTypes acc t imp.internalName) rest

/-- The definition half of the `types` map construction in
`BinaryTransform::typeSection`. -/
def collectFunTypes : List (Ty × List String) → List FunctionDefinition →
    List (Ty × List String)
  | acc, [] => acc
  | acc, f :: rest => collectFunTypes (insertTypes acc (typeOfFun f) f.name) rest

/-- The `m_functionTypes[name] = index` assignments made while iterating the
`types` map in key order. -/
def assignTypeIndices : Nat → List (Ty × List String) → List (String × Nat) →
    List (String × Nat)
  | _, [], ft => ft
  | i, (_, ns) :: rest, ft =>
      assignTypeIndices (i + 1) rest (ns.foldl (fun acc n => insertA acc n i) ft)

/-- One type-section entry: form byte `0x60`, LEB128 parameter count and
parameter type bytes, LEB128 result count and result type bytes. -/
def typeEntry (t : Ty) : Bytes :=
  0x60 :: (lebEncode t.1.length ++ t.1 ++ lebEncode t.2.length ++ t.2)

/-- Mirrors `BinaryTransform::typeSection` (BinaryTransform.cpp:432): builds
the deduplicated, comparator-ordered signature map, assigns `m_functionTypes`,
and emits section id `0x01` with a length-prefixed payload of the LEB128 count
followed by the entries. Returns the section bytes and `m_functionTypes`. -/
def typeSection (imports : List FunctionImport)
    (functions : List FunctionDefinition) :
    Except String (Bytes × List (String × Nat)) :=
  match collectImportTypes [] imports with
  | .error e => .error e
  | .ok tm0 =>
    let tm := collectFunTypes tm0 functions
    .ok (0x01 :: prefixSize (lebEncode tm.length ++ (tm.map (fun p => typeEntry p.1)).flatten),
         assignTypeIndices 0 tm [])

/-- Mirrors `BinaryTransform::importSection`: section id `0x02`; per import a
length-prefixed module name and external name, kind byte `0x00`, and the
LEB128 type index `m_functionTypes[internalName]` (C++ `operator[]`
value-initialises an absent key to `0`, modelled by `getD 0`; after
`typeSection` every import name is present). -/
def importSection (ft : List (String × Nat)) (imports : List FunctionImport) :
    Bytes :=
  0x02 :: prefixSize (lebEncode imports.length ++
    (imports.map (fun imp =>
      encode imp.module ++ encode imp.externalName ++ [0] ++
      lebEncode ((lookupA ft imp.internalName).getD 0))).flatten)

/-- The per-definition LEB128 type indices of the Function section
(`m_functionTypes.at(fun.name)`, a fatal error when absent). -/
def functionTypeIndices (ft : List (String × Nat)) :
    List FunctionDefinition → Except String Bytes
  | [] => .ok []
  | f :: rest =>
    match lookupA ft f.name with
    | none => .error ("function type " ++ f.name ++ " out of range")
    | some i =>
      match functionTypeIndices ft rest with
      | .error e => .error e
      | .ok bs => .ok (lebEncode i ++ bs)

/-- Mirrors `BinaryTransform::functionSection`: section id `0x03`, LEB128
count of definitions, then each definition's LEB128 type index. -/
def functionSection (ft : List (String × Nat))
    (functions : List FunctionDefinition) : Except String Bytes :=
  match functionTypeIndices ft functions with
  | .error e => .error e
  | .ok bs => .ok (0x03 :: prefixSize (lebEncode functions.length ++ bs))

/-- Mirrors `BinaryTransform::memorySection`: one memory, flags `0`, initial
`1` page. -/
def memorySection : Bytes := 0x05 :: prefixSize (lebEncode 1 ++ [0, 1])

/-- Mirrors `BinaryTransform::globalSection`: per global (one entry per
distinct name, `m_globals.size()`), value type `i64`, mutability `1`, and the
init expression `i64.const 0` `end`. -/
def globalSection (globals : List (String × Nat)) : Bytes :=
  0x06 :: prefixSize (lebEncode globals.length ++
    (List.replicate globals.length
      ([0x7e, 1, 0x42] ++ lebEncodeSigned 0 ++ [0x0b])).flatten)

/-- Mirrors `BinaryTransform::exportSection`: exports the memory as
`"memory"` (kind `0x02`, index 0) and the function `"main"` (kind `0x00`,
its `m_functions.at("main")` index, fatal when absent). -/
def exportSection (functions : List (String × Nat)) : Except String Bytes :=
  match lookupA functions "main" with
  | none => .error "function main out of range"
  | some idx =>
    .ok (0x07 :: prefixSize (lebEncode 2 ++
      encode "memory" ++ [2] ++ lebEncode 0 ++
      encode "main" ++ [0] ++ lebEncode idx))

/-- Mirrors `BinaryTransform::customSection`: section id `0x00`, with a
length-prefixed payload of the length-prefixed name followed by the data. -/
def customSection (name : String) (data : Bytes) : Bytes :=
  0x00 :: prefixSize (encode name ++ data)

/-- Consecutive index assignment (used for `m_globals`, `m_functions` and
`m_locals`): each name in order receives the next index, starting at
`start`; a duplicate name is overwritten but still consumes an index, exactly
like the C++ loops' `i`/`funID++`/`varIdx++` counters. -/
def assignIndices : Nat → List String → List (String × Nat) →
    List (String × Nat)
  | _, [], acc => acc
  | start, n :: rest, acc => assignIndices (start + 1) rest (insertA acc n start)

/-- The `m_locals` map rebuilt per function definition: parameters first
(indices from 0 in declaration order), then declared locals. -/
def buildLocals (f : FunctionDefinition) : List (String × Nat) :=
  assignIndices f.parameterNames.length (f.locals.map (·.variableName))
    (assignIndices 0 f.parameterNames [])

/-- Mirrors `BinaryTransform::operator()(FunctionDefinition)`: one locals
group (count byte `1`), LEB128 count of declared locals (parameters excluded),
value type `i64`, the lowered body, the `end` byte — all length-prefixed. -/
def lowerFunction (env : Env) (f : FunctionDefinition) : Except String Bytes :=
  match lowerExprs { env with locals := buildLocals f } f.body with
  | .error e => .error e
  | .ok body =>
    .ok (prefixSize (lebEncode 1 ++ lebEncode f.locals.length ++ [0x7e] ++
      body ++ [0x0b]))

/-- The concatenated length-prefixed bodies of the Code section. -/
def functionBodies (env : Env) : List FunctionDefinition → Except String Bytes
  | [] => .ok []
  | f :: rest =>
    match lowerFunction env f with
    | .error e => .error e
    | .ok b =>
      match functionBodies env rest with
      | .error e => .error e
      | .ok bs => .ok (b ++ bs)

/-- Mirrors `BinaryTransform::codeSection`: section id `0x0a`, LEB128 count of
definitions, then the length-prefixed bodies. -/
def codeSection (env : Env) (functions : List FunctionDefinition) :
    Except String Bytes :=
  match functionBodies env functions with
  | .error e => .error e
  | .ok bs => .ok (0x0a :: prefixSize (lebEncode functions.length ++ bs))

/-- The eight-byte module header `"\0asm"` + version `1`. -/
def moduleHeader : Bytes := [0x00, 0x61, 0x73, 0x6d] ++ [1, 0, 0, 0]

mutual

/-- Mirrors `BinaryTransform::run` (BinaryTransform.cpp:209): builds
`m_globals` and `m_functions`, emits header and sections in the fixed order
Type, Import, Function, Memory, Global, Export, one Custom section per
sub-module (in mapping iteration order, recording offset and size), Code. -/
def run : Module → Except String Bytes
  | .mk globals imports functions subModules =>
    let globalsMap := assignIndices 0 (globals.map (·.variableName)) []
    let functionsMap := assignIndices 0
      (imports.map (·.internalName) ++ functions.map (·.name)) []
    match typeSection imports functions with
    | .error e => .error e
    | .ok (typeSec, ft) =>
      match functionSection ft functions with
      | .error e => .error e
      | .ok funcSec =>
        match exportSection functionsMap with
        | .error e => .error e
        | .ok exportSec =>
          let base := moduleHeader ++ typeSec ++ importSection ft imports ++
            funcSec ++ memorySection ++ globalSection globalsMap ++ exportSec
          match embedSubModules base [] subModules with
          | .error e => .error e
          | .ok (withSubs, posMap) =>
            match codeSection ⟨functionsMap, globalsMap, [], posMap⟩ functions with
            | .error e => .error e
            | .ok codeSec => .ok (withSubs ++ codeSec)

/-- The sub-module loop of `run`: recursively encodes each sub-module,
appends it as a custom section, and records
`m_subModulePosAndSize[name] = (ret.size() - data.size(), data.size())` -
the byte position in the final output at which the sub-module's bytes begin,
and their length. -/
def embedSubModules : Bytes → List (String × (Nat × Nat)) →
    List (String × Module) → Except String (Bytes × List (String × (Nat × Nat)))
  | acc, posMap, [] => .ok (acc, posMap)
  | acc, posMap, (name, sub) :: rest =>
    match run sub with
    | .error e => .error e
    | .ok data =>
      let acc2 := acc ++ customSection name data
      embedSubModules acc2
        (insertA posMap name (acc2.length - data.length, data.length)) rest

end

/-! ### Lookup lemmas for the association-list maps -/

theorem lookupA_insertA {α : Type} (l : List (String × α)) (k k' : String)
    (v : α) :
    lookupA (insertA l k v) k' = if k = k' then some v else lookupA l k' := by
  induction l with
  | nil => rfl
  | cons p rest ih =>
    obtain ⟨k0, v0⟩ := p
    simp only [insertA]
    by_cases h0 : k0 = k
    · subst h0
      rw [if_pos rfl]
      simp only [lookupA]
      split_ifs <;> simp_all
    · rw [if_neg h0]
      simp only [lookupA, ih]
      split_ifs <;> simp_all

theorem lookupA_assignIndices_not_mem (names : List String) (k : String)
    (hk : ¬ k ∈ names) : ∀ (s : Nat) (acc : List (String × Nat)),
    lookupA (assignIndices s names acc) k = lookupA acc k := by
  induction names with
  | nil => intro s acc; rfl
  | cons n rest ih =>
    intro s acc
    simp only [List.mem_cons, not_or] at hk
    rw [assignIndices, ih hk.2, lookupA_insertA,
      if_neg (by intro h; exact hk.1 h.symm)]

theorem lookupA_assignIndices_mem (names : List String) (hnd : names.Nodup) :
    ∀ (i : Nat) (hi : i < names.length) (s : Nat) (acc : List (String × Nat)),
    lookupA (assignIndices s names acc) (names.get ⟨i, hi⟩) = some (s + i) := by
  induction names with
  | nil =>
    intro i hi
    simp at hi
  | cons n rest ih =>
    intro i hi s acc
    rcases List.nodup_cons.mp hnd with ⟨hn, hrest⟩
    match i with
    | 0 =>
      show lookupA (assignIndices (s + 1) rest (insertA acc n s)) n = some (s + 0)
      rw [lookupA_assignIndices_not_mem rest n hn, lookupA_insertA, if_pos rfl,
        Nat.add_zero]
    | i + 1 =>
      show lookupA (assignIndices (s + 1) rest (insertA acc n s))
        (rest.get ⟨i, _⟩) = some (s + (i + 1))
      rw [ih hrest i (by simpa using hi) (s + 1) (insertA acc n s)]
      congr 1
      omega

/-! ### Unfolding equations for the expression visitor

The nested structural recursion of `lowerExpr`/`lowerExprs` does not produce
usable automatic equation lemmas; the following restate the definition and
hold by `rfl`. -/

theorem lowerExpr_builtinCall (env : Env) (name : String)
    (args : List Expression) :
    lowerExpr env (.builtinCall name args) =
      if name = "dataoffset" then
        match args with
        | .stringLiteral s :: _ =>
            match lookupA env.subModulePosAndSize s with
            | some ps => .ok (0x42 :: lebEncodeSigned (ps.1 : Int))
            | none => .error ("sub-module " ++ s ++ " out of range")
        | _ => .error "bad get: argument 0 is not a string literal"
      else if name = "datasize" then
        match args with
        | .stringLiteral s :: _ =>
            match lookupA env.subModulePosAndSize s with
            | some ps => .ok (0x42 :: lebEncodeSigned (ps.2 : Int))
            | none => .error ("sub-module " ++ s ++ " out of range")
        | _ => .error "bad get: argument 0 is not a string literal"
      else
        match lowerExprs env args with
        | .error e => .error e
        | .ok argBytes =>
          if name = "unreachable" then .ok [0x00]
          else
            match lookupA builtins name with
            | some op =>
                .ok (argBytes ++ [op] ++
                  (if strContains name ".load" || strContains name ".store"
                   then [3, 0] else []))
            | none => .error ("Builtin " ++ name ++ " not found") := rfl

theorem lowerExpr_functionCall (env : Env) (name : String)
    (args : List Expression) :
    lowerExpr env (.functionCall name args) =
      match lowerExprs env args with
      | .error e => .error e
      | .ok argBytes =>
        match lookupA env.functions name with
        | some idx => .ok (argBytes ++ [0x10, idx % 256])
        | none => .error ("function " ++ name ++ " out of range") := rfl

theorem lowerExprs_cons (env : Env) (e : Expression) (es : List Expression) :
    lowerExprs env (e :: es) =
      match lowerExpr env e with
      | .error err => .error err
      | .ok b =>
        match lowerExprs env es with
        | .error err => .error err
        | .ok bs => .ok (b ++ bs) := rfl

/-! ### C6: the `unreachable` builtin -/

/-- C6 counterexample: for `BuiltinCall "unreachable" [Literal 1]` the
arguments lower to `[0x42, 0x01]`, but the emitted byte sequence is only
`[0x00]` - `bytes args = visit(_call.arguments)` is computed and then
discarded by `return opcode(Opcode::Unreachable)` - not the claimed
arguments-then-opcode sequence `[0x42, 0x01, 0x00]`. -/
theorem unreachable_discards_arguments :
    lowerExprs ⟨[], [], [], []⟩ [.literal 1] = .ok [0x42, 1] ∧
    lowerExpr ⟨[], [], [], []⟩ (.builtinCall "unreachable" [.literal 1]) =
      .ok [0x00] ∧
    ([0x00] : Bytes) ≠ [0x42, 1] ++ [0x00] :=
  ⟨rfl, rfl, by decide⟩

/-- C6 (amended): for every `BuiltinCall "unreachable"`, the arguments are
lowered first (so an argument failure propagates), but their bytes are
discarded: whenever the arguments lower successfully the emitted byte
sequence is exactly the single opcode byte `0x00`. -/
theorem unreachable_emits_opcode_only (env : Env) (args : List Expression)
    (bs : Bytes) (h : lowerExprs env args = .ok bs) :
    lowerExpr env (.builtinCall "unreachable" args) = .ok [0x00] := by
  rw [lowerExpr_builtinCall, if_neg (by decide), if_neg (by decide), h]
  rfl

/-- Witness for C6 (amended) at `args = [Literal 2]`. -/
theorem unreachable_emits_opcode_only_witness :
    lowerExpr ⟨[], [], [], []⟩ (.builtinCall "unreachable" [.literal 2]) =
      .ok [0x00] :=
  unreachable_emits_opcode_only ⟨[], [], [], []⟩ [.literal 2] [0x42, 2] rfl

/-! ### C9: unsupported constructs are fatal -/

/-- C9: lowering a `StringLiteral` (outside the dataoffset/datasize argument
position), a `Break`, a `BreakIf`, or a `BuiltinCall` whose name is none of
the three special names and absent from the builtin table, is a fatal encoder
error carrying the offending name or construct; the `Except` result type is
all-or-nothing, so a failing construct yields no partial output, and a module
whose code contains one fails as a whole (final conjunct). -/
theorem unsupported_constructs_fatal (env : Env) (s lbl name : String)
    (args : List Expression) (bs : Bytes)
    (h1 : name ≠ "dataoffset") (h2 : name ≠ "datasize")
    (h3 : name ≠ "unreachable") (h4 : lookupA builtins name = none)
    (h5 : lowerExprs env args = .ok bs) :
    lowerExpr env (.stringLiteral s) =
      .error "String literals not yet implemented" ∧
    lowerExpr env (.breakStmt lbl) = .error "br not yet implemented." ∧
    lowerExpr env (.breakIf lbl) = .error "br_if not yet implemented." ∧
    lowerExpr env (.builtinCall name args) =
      .error ("Builtin " ++ name ++ " not found") ∧
    run (.mk [] [] [⟨"main", [], [], false, [.breakStmt lbl]⟩] []) =
      .error "br not yet implemented." := by
  refine ⟨rfl, rfl, rfl, ?_, rfl⟩
  rw [lowerExpr_builtinCall, if_neg h1, if_neg h2, h5]
  simp only [if_neg h3, h4]

/-- Witness for C9 at the unknown builtin name `"f64.add"` (not in the
table), label `"l"`, string `"x"`, empty argument list. -/
theorem unsupported_constructs_fatal_witness :
    lowerExpr ⟨[], [], [], []⟩ (.builtinCall "f64.add" []) =
      .error ("Builtin " ++ "f64.add" ++ " not found") :=
  (unsupported_constructs_fatal ⟨[], [], [], []⟩ "x" "l" "f64.add" [] []
    (by decide) (by decide) (by decide) rfl rfl).2.2.2.1

/-! ### C8: function body emission -/

/-- C8: for every function definition whose lowering succeeds, the emitted
Code-section entry is one locals group (byte `0x01`), the LEB128 count of
declared locals (parameters excluded), the value-type byte `0x7e`, the lowered
body (under the local index map that assigns parameters indices from 0 in
declaration order followed by the declared locals), and the end byte `0x0b`,
the whole preceded by the LEB128 of its exact byte length. -/
theorem functionDefinition_body_emission (env : Env) (f : FunctionDefinition)
    (code : Bytes)
    (hnd : (f.parameterNames ++ f.locals.map (·.variableName)).Nodup)
    (h : lowerFunction env f = .ok code) :
    (∃ body, lowerExprs { env with locals := buildLocals f } f.body = .ok body ∧
      code = lebEncode (([1] ++ lebEncode f.locals.length ++ [0x7e] ++ body ++
               [0x0b]).length) ++
             ([1] ++ lebEncode f.locals.length ++ [0x7e] ++ body ++ [0x0b])) ∧
    (∀ i (hi : i < f.parameterNames.length),
      lookupA (buildLocals f) (f.parameterNames.get ⟨i, hi⟩) = some i) ∧
    (∀ j (hj : j < f.locals.length),
      lookupA (buildLocals f) ((f.locals.get ⟨j, hj⟩).variableName) =
        some (f.parameterNames.length + j)) := by
  rcases List.nodup_append.mp hnd with ⟨hp, hl, hdisj⟩
  refine ⟨?_, ?_, ?_⟩
  · rw [lowerFunction] at h
    cases hb : lowerExprs { env with locals := buildLocals f } f.body with
    | error e =>
      rw [hb] at h
      exact absurd (show (Except.error e : Except String Bytes) = .ok code from h)
        (by simp)
    | ok body =>
      rw [hb] at h
      refine ⟨body, rfl, ?_⟩
      have h2 : (Except.ok (prefixSize (lebEncode 1 ++ lebEncode f.locals.length ++
          [0x7e] ++ body ++ [0x0b])) : Except String Bytes) = .ok code := h
      injection h2 with h3
      rw [← h3, prefixSize, show lebEncode 1 = [1] from lebEncode_small (by norm_num)]
  · intro i hi
    rw [buildLocals,
      lookupA_assignIndices_not_mem _ _
        (by
          intro hmem
          exact hdisj (f.parameterNames.get_mem i hi) hmem),
      lookupA_assignIndices_mem f.parameterNames hp i hi 0 [], Nat.zero_add]
  · intro j hj
    rw [buildLocals]
    have hj' : j < (f.locals.map (·.variableName)).length := by
      simpa using hj
    have := lookupA_assignIndices_mem (f.locals.map (·.variableName)) hl j hj'
      f.parameterNames.length (assignIndices 0 f.parameterNames [])
    rw [show (f.locals.map (·.variableName)).get ⟨j, hj'⟩ =
        (f.locals.get ⟨j, hj⟩).variableName from by simp] at this
    exact this

/-- Witness for C8 at `f = ⟨"f", ["x"], [⟨"y"⟩], false, [LocalVariable "x"]⟩`:
the body is `[0x20, 0x00]` (`local.get 0`), the locals count is 1, and the
length-prefixed entry is `[6, 1, 1, 0x7e, 0x20, 0, 0x0b]`. -/
theorem functionDefinition_body_emission_witness :
    lookupA (buildLocals ⟨"f", ["x"], [⟨"y"⟩], false, [.localVariable "x"]⟩)
      "x" = some 0 ∧
    lowerFunction ⟨[], [], [], []⟩
      ⟨"f", ["x"], [⟨"y"⟩], false, [.localVariable "x"]⟩ =
      .ok [6, 1, 1, 0x7e, 0x20, 0, 0x0b] := by
  have h := functionDefinition_body_emission ⟨[], [], [], []⟩
    ⟨"f", ["x"], [⟨"y"⟩], false, [.localVariable "x"]⟩
    [6, 1, 1, 0x7e, 0x20, 0, 0x0b] (by decide) rfl
  exact ⟨h.2.1 0 (by norm_num), rfl⟩

/-! ### C4: function index assignment and `call` emission -/

/-- `Except.isOk` as a plain definition (avoiding library-name drift). -/
def exceptOk {ε α : Type} : Except ε α → Bool
  | .ok _ => true
  | .error _ => false

/-- The 256 imports (all mapping to internal name `"f"`) of the C4
counterexample module; each import consumes one function index. -/
def cexImports : List FunctionImport :=
  List.replicate 256 ⟨"m", "f", "f", [], none⟩

/-- C4 counterexample module: 256 function imports followed by a definition
of `"main"` whose body calls `"main"`; the resolver assigns `"main"` function
index 256. -/
def cexModule : Module :=
  .mk [] cexImports [⟨"main", [], [], false, [.functionCall "main" []]⟩] []

/-- C4 counterexample: `run` succeeds on `cexModule`, the resolver assigns
the called function `"main"` index 256, but the byte emitted after the `call`
opcode `0x10` is `256 % 256 = 0` - `result.push_back(m_functions.at(...))`
truncates the index to a single byte, so it cannot equal the assigned index
once 256 functions exist. -/
theorem call_index_byte_truncated :
    lookupA (assignIndices 0 (cexModule.imports.map (·.internalName) ++
      cexModule.functions.map (·.name)) []) "main" = some 256 ∧
    lowerExpr ⟨assignIndices 0 (cexModule.imports.map (·.internalName) ++
        cexModule.functions.map (·.name)) [], [], [], []⟩
      (.functionCall "main" []) = .ok [0x10, 0] ∧
    exceptOk (run cexModule) = true ∧
    (0 : Nat) ≠ 256 :=
  ⟨rfl, rfl, rfl, by decide⟩

/-- C4 (amended): function indices are assigned by walking the imports in
declaration order starting from 0, then continuing with the definitions; for
every emitted `call` opcode, the byte that follows is the assigned index
reduced modulo 256 (the source emits the index as one raw byte), which equals
the assigned index exactly when it is below 256; and the export of `"main"`
uses the LEB128 of its resolved index. -/
theorem function_index_resolution (imports : List FunctionImport)
    (functions : List FunctionDefinition)
    (hnd : (imports.map (·.internalName) ++ functions.map (·.name)).Nodup) :
    (∀ i (hi : i < imports.length),
       lookupA (assignIndices 0 (imports.map (·.internalName) ++
           functions.map (·.name)) [])
         ((imports.get ⟨i, hi⟩).internalName) = some i) ∧
    (∀ j (hj : j < functions.length),
       lookupA (assignIndices 0 (imports.map (·.internalName) ++
           functions.map (·.name)) [])
         ((functions.get ⟨j, hj⟩).name) = some (imports.length + j)) ∧
    (∀ (env : Env) (name : String) (args : List Expression) (bs : Bytes)
       (idx : Nat), lowerExprs env args = .ok bs →
       lookupA env.functions name = some idx →
       lowerExpr env (.functionCall name args) = .ok (bs ++ [0x10, idx % 256]) ∧
       (idx < 256 → idx % 256 = idx)) ∧
    (∀ (fm : List (String × Nat)) (idx : Nat), lookupA fm "main" = some idx →
       exportSection fm = .ok (0x07 :: prefixSize (lebEncode 2 ++
         encode "memory" ++ [2] ++ lebEncode 0 ++
         encode "main" ++ [0] ++ lebEncode idx))) := by
  refine ⟨?_, ?_, ?_, ?_⟩
  · intro i hi
    have hi' : i < (imports.map (·.internalName) ++
        functions.map (·.name)).length := by
      simp
      omega
    have h := lookupA_assignIndices_mem _ hnd i hi' 0 []
    rw [Nat.zero_add] at h
    rw [show (imports.map (·.internalName) ++ functions.map (·.name)).get
        ⟨i, hi'⟩ = (imports.get ⟨i, hi⟩).internalName from by
      rw [List.get_eq_getElem, List.getElem_append_left (by simpa using hi)]
      simp] at h
    exact h
  · intro j hj
    have hj' : imports.length + j < (imports.map (·.internalName) ++
        functions.map (·.name)).length := by
      simp
      omega
    have h := lookupA_assignIndices_mem _ hnd (imports.length + j) hj' 0 []
    rw [Nat.zero_add] at h
    rw [show (imports.map (·.internalName) ++ functions.map (·.name)).get
        ⟨imports.length + j, hj'⟩ = (functions.get ⟨j, hj⟩).name from by
      rw [List.get_eq_getElem,
        List.getElem_append_right
          (by simpa using Nat.le_add_right imports.length j)]
      simp] at h
    exact h
  · intro env name args bs idx hargs hidx
    refine ⟨?_, fun h => Nat.mod_eq_of_lt h⟩
    rw [lowerExpr_functionCall, hargs, hidx]
  · intro fm idx hidx
    rw [exportSection, hidx]

/-- Witness for C4 (amended) on a one-import, one-definition module:
the import gets index 0, `"main"` gets index 1, a call to `"main"` under that
resolver emits `[0x10, 1]`, and the export section uses `lebEncode 1`. -/
theorem function_index_resolution_witness :
    lookupA (assignIndices 0
      ((([⟨"m", "f", "f", [], none⟩] : List FunctionImport).map
          (·.internalName)) ++
       (([⟨"main", [], [], false, []⟩] : List FunctionDefinition).map
          (·.name))) []) "main" = some 1 ∧
    lowerExpr ⟨[("main", 1)], [], [], []⟩ (.functionCall "main" []) =
      .ok ([] ++ [0x10, 1 % 256]) := by
  have h := function_index_resolution [⟨"m", "f", "f", [], none⟩]
    [⟨"main", [], [], false, []⟩] (by decide)
  refine ⟨by simpa using h.2.1 0 (by norm_num), ?_⟩
  exact (h.2.2.1 ⟨[("main", 1)], [], [], []⟩ "main" [] [] 1 rfl rfl).1

/-! ### Unfolding equations for `run` and the sub-module loop -/

theorem embedSubModules_nil (acc : Bytes) (pos : List (String × (Nat × Nat))) :
    embedSubModules acc pos [] = .ok (acc, pos) := rfl

theorem embedSubModules_cons (acc : Bytes) (pos : List (String × (Nat × Nat)))
    (name : String) (sub : Module) (rest : List (String × Module)) :
    embedSubModules acc pos ((name, sub) :: rest) =
      match run sub with
      | .error e => .error e
      | .ok data =>
        embedSubModules (acc ++ customSection name data)
          (insertA pos name
            ((acc ++ customSection name data).length - data.length,
             data.length)) rest := rfl

theorem run_eq (globals : List GlobalVariableDeclaration)
    (imports : List FunctionImport) (functions : List FunctionDefinition)
    (subModules : List (String × Module)) :
    run (.mk globals imports functions subModules) =
      match typeSection imports functions with
      | .error e => .error e
      | .ok (typeSec, ft) =>
        match functionSection ft functions with
        | .error e => .error e
        | .ok funcSec =>
          match exportSection (assignIndices 0
              (imports.map (·.internalName) ++ functions.map (·.name)) []) with
          | .error e => .error e
          | .ok exportSec =>
            match embedSubModules (moduleHeader ++ typeSec ++
                importSection ft imports ++ funcSec ++ memorySection ++
                globalSection (assignIndices 0
                  (globals.map (·.variableName)) []) ++ exportSec) []
                subModules with
            | .error e => .error e
            | .ok (withSubs, posMap) =>
              match codeSection ⟨assignIndices 0
                  (imports.map (·.internalName) ++ functions.map (·.name)) [],
                  assignIndices 0 (globals.map (·.variableName)) [], [],
                  posMap⟩ functions with
              | .error e => .error e
              | .ok codeSec => .ok (withSubs ++ codeSec) := rfl

/-! ### Shape lemmas: every emitted section is id-byte :: length-prefixed
payload -/

theorem typeSection_shape (imports : List FunctionImport)
    (functions : List FunctionDefinition) (bs : Bytes)
    (ft : List (String × Nat)) (h : typeSection imports functions = .ok (bs, ft)) :
    ∃ p, bs = 0x01 :: prefixSize p := by
  rw [typeSection] at h
  cases hc : collectImportTypes [] imports with
  | error e => rw [hc] at h; exact absurd h (by simp)
  | ok tm0 =>
    rw [hc] at h
    have h2 : (Except.ok ((0x01 : Nat) ::
        prefixSize (lebEncode (collectFunTypes tm0 functions).length ++
          ((collectFunTypes tm0 functions).map
            (fun p => typeEntry p.1)).flatten),
        assignTypeIndices 0 (collectFunTypes tm0 functions) []) :
        Except String (Bytes × List (String × Nat))) = .ok (bs, ft) := h
    injection h2 with h3
    exact ⟨_, (congrArg Prod.fst h3).symm⟩

theorem functionSection_shape (ft : List (String × Nat))
    (functions : List FunctionDefinition) (bs : Bytes)
    (h : functionSection ft functions = .ok bs) :
    ∃ p, bs = 0x03 :: prefixSize p := by
  rw [functionSection] at h
  cases hc : functionTypeIndices ft functions with
  | error e => rw [hc] at h; exact absurd h (by simp)
  | ok tis =>
    rw [hc] at h
    have h2 : (Except.ok ((0x03 : Nat) ::
        prefixSize (lebEncode functions.length ++ tis)) :
        Except String Bytes) = .ok bs := h
    injection h2 with h3
    exact ⟨_, h3.symm⟩

theorem exportSection_shape (fm : List (String × Nat)) (bs : Bytes)
    (h : exportSection fm = .ok bs) : ∃ p, bs = 0x07 :: prefixSize p := by
  rw [exportSection] at h
  cases hc : lookupA fm "main" with
  | none => rw [hc] at h; exact absurd h (by simp)
  | some idx =>
    rw [hc] at h
    have h2 : (Except.ok ((0x07 : Nat) :: prefixSize (lebEncode 2 ++
        encode "memory" ++ [2] ++ lebEncode 0 ++
        encode "main" ++ [0] ++ lebEncode idx)) : Except String Bytes) =
        .ok bs := h
    injection h2 with h3
    exact ⟨_, h3.symm⟩

theorem codeSection_shape (env : Env) (functions : List FunctionDefinition)
    (bs : Bytes) (h : codeSection env functions = .ok bs) :
    ∃ p, bs = 0x0a :: prefixSize p := by
  rw [codeSection] at h
  cases hc : functionBodies env functions with
  | error e => rw [hc] at h; exact absurd h (by simp)
  | ok bodies =>
    rw [hc] at h
    have h2 : (Except.ok ((0x0a : Nat) ::
        prefixSize (lebEncode functions.length ++ bodies)) :
        Except String Bytes) = .ok bs := h
    injection h2 with h3
    exact ⟨_, h3.symm⟩

/-! ### The sub-module embedding loop: structure of the appended customs -/

theorem embedSubModules_structure : ∀ (subs : List (String × Module))
    (acc : Bytes) (pos acc'pos' : List (String × (Nat × Nat))) (acc' : Bytes),
    embedSubModules acc pos subs = .ok (acc', acc'pos') →
    ∃ datas : List Bytes, datas.length = subs.length ∧
      (∀ p ∈ subs.zip datas, run p.1.2 = .ok p.2) ∧
      acc' = acc ++ ((subs.zip datas).map
        (fun p => customSection p.1.1 p.2)).flatten := by
  intro subs
  induction subs with
  | nil =>
    intro acc pos pos' acc' h
    rw [embedSubModules_nil] at h
    have h2 : (acc, pos) = (acc', pos') := by injection h
    injection h2 with ha hp
    refine ⟨[], rfl, by simp, ?_⟩
    rw [← ha]
    simp
  | cons hd rest ih =>
    obtain ⟨name, sub⟩ := hd
    intro acc pos pos' acc' h
    rw [embedSubModules_cons] at h
    cases hr : run sub with
    | error e => rw [hr] at h; exact absurd h (by simp)
    | ok data =>
      rw [hr] at h
      obtain ⟨datas, hlen, hmem, hacc⟩ := ih _ _ _ _ h
      refine ⟨data :: datas, by simp [hlen], ?_, ?_⟩
      · intro p hp
        rcases List.mem_cons.mp (by simpa [List.zip] using hp) with h' | h'
        · rw [h']; exact hr
        · exact hmem p h'
      · rw [hacc]
        simp [List.zip, List.append_assoc]

/-- C3: for every module on which `run` succeeds, the output begins with the
eight bytes `00 61 73 6D 01 00 00 00` followed by the sections in the order
Type (`0x01`), Import (`0x02`), Function (`0x03`), Memory (`0x05`), Global
(`0x06`), Export (`0x07`), one Custom section (`0x00`) per sub-module in the
sub-module mapping's iteration order, then Code (`0x0a`); every section is its
one-byte id followed by `prefixSize payload = lebEncode payload.length ++
payload`, the LEB128 of the remaining payload's length. -/
theorem run_inversion (globals : List GlobalVariableDeclaration)
    (imports : List FunctionImport) (functions : List FunctionDefinition)
    (subModules : List (String × Module)) (B : Bytes)
    (h : run (.mk globals imports functions subModules) = .ok B) :
    ∃ (typeSec : Bytes) (ft : List (String × Nat)) (funcSec exportSec
      withSubs : Bytes) (posMap : List (String × (Nat × Nat))) (codeSec : Bytes),
      typeSection imports functions = .ok (typeSec, ft) ∧
      functionSection ft functions = .ok funcSec ∧
      exportSection (assignIndices 0
        (imports.map (·.internalName) ++ functions.map (·.name)) []) =
        .ok exportSec ∧
      embedSubModules (moduleHeader ++ typeSec ++ importSection ft imports ++
          funcSec ++ memorySection ++
          globalSection (assignIndices 0 (globals.map (·.variableName)) []) ++
          exportSec) [] subModules = .ok (withSubs, posMap) ∧
      codeSection ⟨assignIndices 0
          (imports.map (·.internalName) ++ functions.map (·.name)) [],
          assignIndices 0 (globals.map (·.variableName)) [], [], posMap⟩
        functions = .ok codeSec ∧
      B = withSubs ++ codeSec := by
  rw [run_eq] at h
  split at h
  · exact absurd h (by simp)
  rename_i typeSec ft ht
  split at h
  · exact absurd h (by simp)
  rename_i funcSec hf
  split at h
  · exact absurd h (by simp)
  rename_i exportSec he
  split at h
  · exact absurd h (by simp)
  rename_i withSubs posMap hs
  split at h
  · exact absurd h (by simp)
  rename_i codeSec hc
  exact ⟨typeSec, ft, funcSec, exportSec, withSubs, posMap, codeSec,
    ht, hf, he, hs, hc, by injection h with h2; exact h2.symm⟩

theorem run_output_structure (m : Module) (B : Bytes) (h : run m = .ok B) :
    ∃ (tp imp fn gl ex cp : Bytes) (datas : List Bytes),
      B = moduleHeader ++
          (0x01 :: prefixSize tp) ++ (0x02 :: prefixSize imp) ++
          (0x03 :: prefixSize fn) ++
          (0x05 :: prefixSize (lebEncode 1 ++ [0, 1])) ++
          (0x06 :: prefixSize gl) ++ (0x07 :: prefixSize ex) ++
          ((m.subModules.zip datas).map
            (fun p => 0x00 :: prefixSize (encode p.1.1 ++ p.2))).flatten ++
          (0x0a :: prefixSize cp) ∧
      moduleHeader = [0x00, 0x61, 0x73, 0x6d, 0x01, 0x00, 0x00, 0x00] ∧
      datas.length = m.subModules.length ∧
      (∀ p ∈ m.subModules.zip datas, run p.1.2 = .ok p.2) := by
  obtain ⟨globals, imports, functions, subModules⟩ := m
  obtain ⟨typeSec, ft, funcSec, exportSec, withSubs, posMap, codeSec,
    ht, hf, he, hs, hc, hB⟩ :=
    run_inversion globals imports functions subModules B h
  obtain ⟨tp, htp⟩ := typeSection_shape imports functions typeSec ft ht
  obtain ⟨fn, hfn⟩ := functionSection_shape ft functions funcSec hf
  obtain ⟨ex, hex⟩ := exportSection_shape _ exportSec he
  obtain ⟨cp, hcp⟩ := codeSection_shape _ functions codeSec hc
  obtain ⟨datas, hlen, hdm, hws⟩ :=
    embedSubModules_structure subModules _ [] posMap withSubs hs
  refine ⟨tp, lebEncode imports.length ++
      (imports.map (fun imp => encode imp.module ++
        encode imp.externalName ++ [0] ++
        lebEncode ((lookupA ft imp.internalName).getD 0))).flatten,
    fn, lebEncode (assignIndices 0
        (globals.map (·.variableName)) []).length ++
      (List.replicate (assignIndices 0
          (globals.map (·.variableName)) []).length
        ([0x7e, 1, 0x42] ++ lebEncodeSigned 0 ++ [0x0b])).flatten,
    ex, cp, datas, ?_, rfl, hlen, hdm⟩
  rw [hB, hws, htp, hfn, hex, hcp]
  rw [show importSection ft imports = 0x02 :: prefixSize (lebEncode
      imports.length ++ (imports.map (fun imp => encode imp.module ++
        encode imp.externalName ++ [0] ++
        lebEncode ((lookupA ft imp.internalName).getD 0))).flatten)
    from rfl]
  rw [show memorySection = 0x05 :: prefixSize (lebEncode 1 ++ [0, 1]) from rfl]
  rw [show globalSection (assignIndices 0 (globals.map (·.variableName)) []) =
      0x06 :: prefixSize (lebEncode (assignIndices 0
        (globals.map (·.variableName)) []).length ++
      (List.replicate (assignIndices 0
          (globals.map (·.variableName)) []).length
        ([0x7e, 1, 0x42] ++ lebEncodeSigned 0 ++ [0x0b])).flatten) from rfl]
  simp only [Module.subModules, customSection, List.append_assoc]

/-- Witness for C3: the two-section witness module (a `main` that reads
`dataoffset`/`datasize` of the embedded sub-module `"s"`) encodes
successfully; `run_output_structure` applies to its concrete output. -/
theorem run_output_structure_witness :
    run (.mk [] [] [⟨"main", [], [], false,
        [.builtinCall "dataoffset" [.stringLiteral "s"],
         .builtinCall "datasize" [.stringLiteral "s"]]⟩]
      [("s", .mk [] [] [⟨"main", [], [], false, []⟩] [])]) =
      .ok [0, 97, 115, 109, 1, 0, 0, 0, 1, 4, 1, 96, 0, 0, 2, 1, 0, 3, 2, 1,
        0, 5, 3, 1, 0, 1, 6, 1, 0, 7, 17, 2, 6, 109, 101, 109, 111, 114, 121,
        2, 0, 4, 109, 97, 105, 110, 0, 0, 0, 58, 1, 115, 0, 97, 115, 109, 1,
        0, 0, 0, 1, 4, 1, 96, 0, 0, 2, 1, 0, 3, 2, 1, 0, 5, 3, 1, 0, 1, 6, 1,
        0, 7, 17, 2, 6, 109, 101, 109, 111, 114, 121, 2, 0, 4, 109, 97, 105,
        110, 0, 0, 10, 6, 1, 4, 1, 0, 126, 11, 10, 10, 1, 8, 1, 0, 126, 66,
        52, 66, 56, 11] ∧
    (∃ (tp imp fn gl ex cp : Bytes) (datas : List Bytes),
      [0, 97, 115, 109, 1, 0, 0, 0, 1, 4, 1, 96, 0, 0, 2, 1, 0, 3, 2, 1,
        0, 5, 3, 1, 0, 1, 6, 1, 0, 7, 17, 2, 6, 109, 101, 109, 111, 114, 121,
        2, 0, 4, 109, 97, 105, 110, 0, 0, 0, 58, 1, 115, 0, 97, 115, 109, 1,
        0, 0, 0, 1, 4, 1, 96, 0, 0, 2, 1, 0, 3, 2, 1, 0, 5, 3, 1, 0, 1, 6, 1,
        0, 7, 17, 2, 6, 109, 101, 109, 111, 114, 121, 2, 0, 4, 109, 97, 105,
        110, 0, 0, 10, 6, 1, 4, 1, 0, 126, 11, 10, 10, 1, 8, 1, 0, 126, 66,
        52, 66, 56, 11] = moduleHeader ++
          (0x01 :: prefixSize tp) ++ (0x02 :: prefixSize imp) ++
          (0x03 :: prefixSize fn) ++
          (0x05 :: prefixSize (lebEncode 1 ++ [0, 1])) ++
          (0x06 :: prefixSize gl) ++ (0x07 :: prefixSize ex) ++
          (((Module.mk [] [] [⟨"main", [], [], false,
              [.builtinCall "dataoffset" [.stringLiteral "s"],
               .builtinCall "datasize" [.stringLiteral "s"]]⟩]
            [("s", .mk [] [] [⟨"main", [], [], false, []⟩] [])]).subModules.zip
              datas).map
            (fun p => 0x00 :: prefixSize (encode p.1.1 ++ p.2))).flatten ++
          (0x0a :: prefixSize cp)) := by
  refine ⟨rfl, ?_⟩
  obtain ⟨tp, imp, fn, gl, ex, cp, datas, h1, _, _, _⟩ :=
    run_output_structure _ _ (rfl :
      run (.mk [] [] [⟨"main", [], [], false,
        [.builtinCall "dataoffset" [.stringLiteral "s"],
         .builtinCall "datasize" [.stringLiteral "s"]]⟩]
      [("s", .mk [] [] [⟨"main", [], [], false, []⟩] [])]) = .ok _)
  exact ⟨tp, imp, fn, gl, ex, cp, datas, h1⟩

/-! ### C2: dataoffset / datasize report position and size of the embedded
sub-module -/

theorem embedSubModules_lookup_frozen : ∀ (subs : List (String × Module))
    (acc : Bytes) (pos pos' : List (String × (Nat × Nat))) (acc' : Bytes)
    (k : String), embedSubModules acc pos subs = .ok (acc', pos') →
    ¬ k ∈ subs.map Prod.fst → lookupA pos' k = lookupA pos k := by
  intro subs
  induction subs with
  | nil =>
    intro acc pos pos' acc' k h hk
    rw [embedSubModules_nil] at h
    have h2 : (acc, pos) = (acc', pos') := by injection h
    injection h2 with ha hp
    rw [← hp]
  | cons hd rest ih =>
    obtain ⟨n0, s0⟩ := hd
    intro acc pos pos' acc' k h hk
    rw [embedSubModules_cons] at h
    simp only [List.map_cons, List.mem_cons, not_or] at hk
    cases hr : run s0 with
    | error e => rw [hr] at h; exact absurd h (by simp)
    | ok data =>
      rw [hr] at h
      rw [ih _ _ _ _ k h hk.2, lookupA_insertA,
        if_neg (by intro he; exact hk.1 he.symm)]

theorem embedSubModules_pos : ∀ (subs : List (String × Module)) (acc : Bytes)
    (pos pos' : List (String × (Nat × Nat))) (acc' : Bytes)
    (name : String) (sub : Module),
    embedSubModules acc pos subs = .ok (acc', pos') →
    (name, sub) ∈ subs → (subs.map Prod.fst).Nodup →
    ∃ (data A0 suffix : Bytes),
      run sub = .ok data ∧
      acc' = A0 ++ data ++ suffix ∧
      (∃ A1, A0 = A1 ++ [0x00] ++
        lebEncode ((encode name ++ data).length) ++ encode name) ∧
      lookupA pos' name = some (A0.length, data.length) := by
  intro subs
  induction subs with
  | nil => intro _ _ _ _ _ _ _ hmem; exact absurd hmem (by simp)
  | cons hd rest ih =>
    obtain ⟨n0, s0⟩ := hd
    intro acc pos pos' acc' name sub h hmem hnd
    rw [embedSubModules_cons] at h
    simp only [List.map_cons, List.nodup_cons] at hnd
    cases hr : run s0 with
    | error e => rw [hr] at h; exact absurd h (by simp)
    | ok data0 =>
      rw [hr] at h
      rcases List.mem_cons.mp hmem with hhd | htl
      · have hname : name = n0 := congrArg Prod.fst hhd
        have hsub : sub = s0 := congrArg Prod.snd hhd
        subst hname
        subst hsub
        obtain ⟨datas, hlen, hdm, hacc⟩ :=
          embedSubModules_structure rest _ _ pos' acc' h
        refine ⟨data0,
          acc ++ [0x00] ++
            lebEncode ((encode name ++ data0).length) ++ encode name,
          ((rest.zip datas).map
            (fun p => customSection p.1.1 p.2)).flatten,
          hr, ?_, ⟨acc, by simp [List.append_assoc]⟩, ?_⟩
        · rw [hacc]
          rw [show customSection name data0 =
              [0x00] ++ lebEncode ((encode name ++ data0).length) ++
              encode name ++ data0 from by
            rw [customSection, prefixSize]
            simp [List.append_assoc]]
          simp [List.append_assoc]
        · rw [embedSubModules_lookup_frozen rest _ _ _ _ name h hnd.1,
            lookupA_insertA, if_pos rfl]
          have hl : (acc ++ customSection name data0).length =
              (acc ++ [0x00] ++
                lebEncode ((encode name ++ data0).length) ++
                encode name).length + data0.length := by
            rw [show customSection name data0 =
                [0x00] ++ lebEncode ((encode name ++ data0).length) ++
                encode name ++ data0 from by
              rw [customSection, prefixSize]
              simp [List.append_assoc]]
            simp
            omega
          rw [hl, Nat.add_sub_cancel]
      · exact ih _ _ _ _ name sub h htl hnd.2

/-- C2: whenever `run` succeeds on a module with an embedded sub-module `X`,
the final output contains `X`'s standalone encoding `data` immediately after
the custom-section id `0x00`, the section length prefix and the encoded name;
the recorded pair for `X` is `(position at which data begins, data.length)`;
the Code section of this very run is emitted under that map; and lowering
`dataoffset("X")` (resp. `datasize("X")`) under any environment carrying that
map yields opcode `0x42` followed by the signed LEB128 of that position
(resp. of that length). -/
theorem dataoffset_datasize_constants (m : Module) (B : Bytes) (X : String)
    (sub : Module) (hmem : (X, sub) ∈ m.subModules)
    (hnd : (m.subModules.map Prod.fst).Nodup) (h : run m = .ok B) :
    ∃ (data A0 suffix codeSec : Bytes)
      (posMap : List (String × (Nat × Nat))),
      run sub = .ok data ∧
      B = A0 ++ data ++ suffix ∧
      (∃ A1, A0 = A1 ++ [0x00] ++
        lebEncode ((encode X ++ data).length) ++ encode X) ∧
      lookupA posMap X = some (A0.length, data.length) ∧
      codeSection ⟨assignIndices 0
          (m.imports.map (·.internalName) ++ m.functions.map (·.name)) [],
          assignIndices 0 (m.globals.map (·.variableName)) [], [], posMap⟩
        m.functions = .ok codeSec ∧
      (∀ env : Env, env.subModulePosAndSize = posMap →
        lowerExpr env (.builtinCall "dataoffset" [.stringLiteral X]) =
          .ok (0x42 :: lebEncodeSigned (A0.length : Int)) ∧
        lowerExpr env (.builtinCall "datasize" [.stringLiteral X]) =
          .ok (0x42 :: lebEncodeSigned (data.length : Int))) := by
  obtain ⟨globals, imports, functions, subModules⟩ := m
  obtain ⟨typeSec, ft, funcSec, exportSec, withSubs, posMap, codeSec,
    ht, hf, he, hs, hc, hB⟩ :=
    run_inversion globals imports functions subModules B h
  obtain ⟨data, A0, suffix0, hrs, hws, hpre, hlook⟩ :=
    embedSubModules_pos subModules _ [] posMap withSubs X sub hs hmem hnd
  refine ⟨data, A0, suffix0 ++ codeSec, codeSec, posMap, hrs, ?_, hpre,
    hlook, hc, ?_⟩
  · rw [hB, hws]
    simp [List.append_assoc]
  · intro env henv
    constructor
    · rw [lowerExpr_builtinCall, if_pos rfl]
      show (match lookupA env.subModulePosAndSize X with
        | some ps => Except.ok (0x42 :: lebEncodeSigned (ps.1 : Int))
        | none =>
            Except.error ("sub-module " ++ X ++ " out of range")) = _
      rw [henv, hlook]
    · rw [lowerExpr_builtinCall, if_neg (by decide), if_pos rfl]
      show (match lookupA env.subModulePosAndSize X with
        | some ps => Except.ok (0x42 :: lebEncodeSigned (ps.2 : Int))
        | none =>
            Except.error ("sub-module " ++ X ++ " out of range")) = _
      rw [henv, hlook]

/-- The sub-module of the C2 witness. -/
def wSubModule : Module := .mk [] [] [⟨"main", [], [], false, []⟩] []

/-- The C2 witness module: `main` reads `dataoffset("s")` and
`datasize("s")` of the embedded sub-module `"s"`. -/
def wModule : Module := .mk [] [] [⟨"main", [], [], false,
  [.builtinCall "dataoffset" [.stringLiteral "s"],
   .builtinCall "datasize" [.stringLiteral "s"]]⟩] [("s", wSubModule)]

/-- Witness for C2 on `wModule` (whose 120-byte output embeds the 56-byte
sub-module `"s"` at position 52): the hypotheses hold concretely and the
theorem applies. -/
theorem dataoffset_datasize_constants_witness :
    ∃ (data A0 suffix codeSec : Bytes)
      (posMap : List (String × (Nat × Nat))),
      run wSubModule = .ok data ∧
      (match run wModule with | .ok bs => bs | .error _ => []) =
        A0 ++ data ++ suffix ∧
      (∃ A1, A0 = A1 ++ [0x00] ++
        lebEncode ((encode "s" ++ data).length) ++ encode "s") ∧
      lookupA posMap "s" = some (A0.length, data.length) ∧
      codeSection ⟨assignIndices 0
          (wModule.imports.map (·.internalName) ++
           wModule.functions.map (·.name)) [],
          assignIndices 0 (wModule.globals.map (·.variableName)) [], [],
          posMap⟩ wModule.functions = .ok codeSec ∧
      (∀ env : Env, env.subModulePosAndSize = posMap →
        lowerExpr env (.builtinCall "dataoffset" [.stringLiteral "s"]) =
          .ok (0x42 :: lebEncodeSigned (A0.length : Int)) ∧
        lowerExpr env (.builtinCall "datasize" [.stringLiteral "s"]) =
          .ok (0x42 :: lebEncodeSigned (data.length : Int))) :=
  dataoffset_datasize_constants wModule
    (match run wModule with | .ok bs => bs | .error _ => []) "s" wSubModule
    (List.mem_singleton.mpr rfl) (by decide) rfl

/-! ### C5 groundwork: `bytesLt`/`tyLt` are strict total orders -/

theorem bytesLt_irrefl : ∀ a : Bytes, bytesLt a a = false := by
  intro a
  induction a with
  | nil => rfl
  | cons x xs ih => simp [bytesLt, ih]

theorem bytesLt_conn : ∀ a b : Bytes,
    bytesLt a b = false → bytesLt b a = false → a = b := by
  intro a
  induction a with
  | nil =>
    intro b h1 h2
    cases b with
    | nil => rfl
    | cons y ys => simp [bytesLt] at h1
  | cons x xs ih =>
    intro b h1 h2
    cases b with
    | nil => simp [bytesLt] at h2
    | cons y ys =>
      simp only [bytesLt] at h1 h2
      by_cases hxy : x < y
      · rw [if_pos hxy] at h1
        exact absurd h1 (by simp)
      · rw [if_neg hxy] at h1 h2
        by_cases hyx : y < x
        · rw [if_pos hyx] at h2
          exact absurd h2 (by simp)
        · rw [if_neg hyx] at h1 h2
          have hx : x = y := by omega
          rw [hx, ih ys h1 h2]

theorem bytesLt_trans : ∀ a b c : Bytes,
    bytesLt a b = true → bytesLt b c = true → bytesLt a c = true := by
  intro a
  induction a with
  | nil =>
    intro b c h1 h2
    cases b with
    | nil => simp [bytesLt] at h1
    | cons y ys =>
      cases c with
      | nil => simp [bytesLt] at h2
      | cons z zs => rfl
  | cons x xs ih =>
    intro b c h1 h2
    cases b with
    | nil => simp [bytesLt] at h1
    | cons y ys =>
      cases c with
      | nil => simp [bytesLt] at h2
      | cons z zs =>
        simp only [bytesLt] at h1 h2 ⊢
        by_cases hxy : x < y
        · rw [if_pos hxy] at h1
          by_cases hyz : y < z
          · rw [if_pos (by omega : x < z)]
          · rw [if_neg hyz] at h2
            by_cases hzy : z < y
            · rw [if_pos hzy] at h2
              exact absurd h2 (by simp)
            · rw [if_pos (by omega : x < z)]
        · rw [if_neg hxy] at h1
          by_cases hyx : y < x
          · rw [if_pos hyx] at h1
            exact absurd h1 (by simp)
          · rw [if_neg hyx] at h1
            by_cases hyz : y < z
            · rw [if_pos (by omega : x < z)]
            · rw [if_neg hyz] at h2
              by_cases hzy : z < y
              · rw [if_pos hzy] at h2
                exact absurd h2 (by simp)
              · rw [if_neg hzy] at h2
                rw [if_neg (by omega : ¬ x < z), if_neg (by omega : ¬ z < x)]
                exact ih ys zs h1 h2

theorem tyLt_irrefl (a : Ty) : tyLt a a = false := by
  simp [tyLt, bytesLt_irrefl]

theorem tyLt_true_elim (a b : Ty) (h : tyLt a b = true) :
    bytesLt a.1 b.1 = true ∨
    (bytesLt a.1 b.1 = false ∧ bytesLt b.1 a.1 = false ∧
     bytesLt a.2 b.2 = true) := by
  cases hab : bytesLt a.1 b.1 with
  | true => exact .inl rfl
  | false =>
    cases hba : bytesLt b.1 a.1 with
    | true => simp [tyLt, hab, hba] at h
    | false =>
      simp [tyLt, hab, hba] at h
      exact .inr ⟨rfl, rfl, h⟩

theorem tyLt_conn (a b : Ty) (h1 : tyLt a b = false) (h2 : tyLt b a = false) :
    a = b := by
  cases hab : bytesLt a.1 b.1 with
  | true => simp [tyLt, hab] at h1
  | false =>
    cases hba : bytesLt b.1 a.1 with
    | true => simp [tyLt, hba] at h2
    | false =>
      have he1 : a.1 = b.1 := bytesLt_conn _ _ hab hba
      simp [tyLt, hab, hba] at h1 h2
      have he2 : a.2 = b.2 := bytesLt_conn _ _ h1 h2
      obtain ⟨a1, a2⟩ := a
      obtain ⟨b1, b2⟩ := b
      simp only at he1 he2
      rw [he1, he2]

theorem tyLt_trans (a b c : Ty) (h1 : tyLt a b = true)
    (h2 : tyLt b c = true) : tyLt a c = true := by
  rcases tyLt_true_elim a b h1 with hab | ⟨hab, hba, sab⟩
  · rcases tyLt_true_elim b c h2 with hbc | ⟨hbc, hcb, sbc⟩
    · simp [tyLt, bytesLt_trans _ _ _ hab hbc]
    · have : b.1 = c.1 := bytesLt_conn _ _ hbc hcb
      simp [tyLt, this ▸ hab]
  · rcases tyLt_true_elim b c h2 with hbc | ⟨hbc, hcb, sbc⟩
    · have : a.1 = b.1 := bytesLt_conn _ _ hab hba
      simp [tyLt, this ▸ hbc]
    · have he1 : a.1 = b.1 := bytesLt_conn _ _ hab hba
      have he2 : b.1 = c.1 := bytesLt_conn _ _ hbc hcb
      have hac : bytesLt a.1 c.1 = false := by rw [he1, he2, bytesLt_irrefl]
      have hca : bytesLt c.1 a.1 = false := by rw [he1, he2, bytesLt_irrefl]
      simp [tyLt, hac, hca, bytesLt_trans _ _ _ sab sbc]

theorem tyLt_asymm (a b : Ty) (h : tyLt a b = true) : tyLt b a = false := by
  cases hba : tyLt b a with
  | false => rfl
  | true =>
    have := tyLt_trans a b a h hba
    rw [tyLt_irrefl] at this
    exact absurd this (by simp)

/-! ### The type map: buckets, sortedness, name accounting -/

/-- Bucket lookup on the modelled `map<Type, vector<string>>` (exact key
equality; the comparator's equivalence coincides with equality by
`tyLt_conn`). -/
def lookupTy : List (Ty × List String) → Ty → List String
  | [], _ => []
  | (t', ns) :: rest, t => if t' = t then ns else lookupTy rest t

/-- All function names over all buckets, in bucket-then-insertion order. -/
def allNames (tm : List (Ty × List String)) : List String :=
  (tm.map Prod.snd).flatten

/-- Strictly ascending keys - the `std::map` representation invariant. -/
def SortedTM (tm : List (Ty × List String)) : Prop :=
  List.Pairwise (fun p q => tyLt p.1 q.1 = true) tm

theorem mem_insertTypes : ∀ (m : List (Ty × List String)) (t : Ty)
    (n : String) (p : Ty × List String), p ∈ insertTypes m t n →
    p.1 ∈ m.map Prod.fst ∨ p.1 = t := by
  intro m t n
  induction m with
  | nil =>
    intro p hp
    simp only [insertTypes, List.mem_singleton] at hp
    exact .inr (by rw [hp])
  | cons hd rest ih =>
    obtain ⟨t0, ns0⟩ := hd
    intro p hp
    simp only [insertTypes] at hp
    split_ifs at hp with h1 h2
    · rcases List.mem_cons.mp hp with h | h
      · exact .inr (by rw [h])
      · exact .inl (by
          rcases List.mem_cons.mp h with h' | h'
          · simp [h']
          · simp only [List.map_cons, List.mem_cons]
            exact .inr (List.mem_map_of_mem Prod.fst h'))
    · rcases List.mem_cons.mp hp with h | h
      · simp [h]
      · rcases ih p h with h' | h'
        · exact .inl (by simp only [List.map_cons, List.mem_cons]; exact .inr h')
        · exact .inr h'
    · rcases List.mem_cons.mp hp with h | h
      · exact .inl (by simp [h])
      · exact .inl (by
          simp only [List.map_cons, List.mem_cons]
          exact .inr (List.mem_map_of_mem Prod.fst h))

theorem sortedTM_insertTypes : ∀ (m : List (Ty × List String)) (t : Ty)
    (n : String), SortedTM m → SortedTM (insertTypes m t n) := by
  intro m t n hs
  induction m with
  | nil => simp [insertTypes, SortedTM]
  | cons hd rest ih =>
    obtain ⟨t0, ns0⟩ := hd
    rcases List.pairwise_cons.mp hs with ⟨h0, hrest⟩
    simp only [insertTypes]
    split_ifs with h1 h2
    · exact List.Pairwise.cons
        (by
          intro q hq
          rcases List.mem_cons.mp hq with h' | h'
          · rw [h']
            exact h1
          · exact tyLt_trans _ _ _ h1 (h0 q h'))
        hs
    · exact List.Pairwise.cons
        (by
          intro q hq
          rcases mem_insertTypes rest t n q hq with h' | h'
          · obtain ⟨q', hq', he⟩ := List.mem_map.mp h'
            rw [← he]
            exact h0 q' hq'
          · rw [h']
            exact h2)
        (ih hrest)
    · exact List.Pairwise.cons (by intro q hq; exact h0 q hq) hrest

theorem lookupTy_cons_ne (t0 : Ty) (ns0 : List String)
    (rest : List (Ty × List String)) (t' : Ty) (h : t0 ≠ t') :
    lookupTy ((t0, ns0) :: rest) t' = lookupTy rest t' := by
  simp only [lookupTy]
  rw [if_neg h]

theorem lookupTy_cons_eq (t0 : Ty) (ns0 : List String)
    (rest : List (Ty × List String)) :
    lookupTy ((t0, ns0) :: rest) t0 = ns0 := by
  simp [lookupTy]

theorem lookupTy_eq_nil_of_not_mem : ∀ (m : List (Ty × List String)) (t : Ty),
    ¬ t ∈ m.map Prod.fst → lookupTy m t = [] := by
  intro m t
  induction m with
  | nil => intro _; rfl
  | cons hd rest ih =>
    obtain ⟨t0, ns0⟩ := hd
    intro hnm
    simp only [List.map_cons, List.mem_cons, not_or] at hnm
    rw [lookupTy_cons_ne t0 ns0 rest t (fun h => hnm.1 h.symm)]
    exact ih hnm.2

theorem lookupTy_insertTypes_same : ∀ (m : List (Ty × List String)) (t : Ty)
    (n : String), SortedTM m →
    lookupTy (insertTypes m t n) t = lookupTy m t ++ [n] := by
  intro m t n hs
  induction m with
  | nil => simp [insertTypes, lookupTy]
  | cons hd rest ih =>
    obtain ⟨t0, ns0⟩ := hd
    rcases List.pairwise_cons.mp hs with ⟨h0, hrest⟩
    simp only [insertTypes]
    split_ifs with h1 h2
    · have ht0 : t ≠ t0 := by
        intro he
        rw [he, tyLt_irrefl] at h1
        exact absurd h1 (by simp)
      have hnm : ¬ t ∈ ((t0, ns0) :: rest).map Prod.fst := by
        simp only [List.map_cons, List.mem_cons, not_or]
        refine ⟨ht0, ?_⟩
        intro hmem
        obtain ⟨q, hq, he⟩ := List.mem_map.mp hmem
        have := tyLt_trans _ _ _ h1 (h0 q hq)
        rw [← he, tyLt_irrefl] at this
        exact absurd this (by simp)
      rw [lookupTy_eq_nil_of_not_mem _ _ hnm]
      simp [lookupTy]
    · have ht0 : t0 ≠ t := by
        intro he
        rw [he, tyLt_irrefl] at h2
        exact absurd h2 (by simp)
      simp only [lookupTy, if_neg ht0]
      exact ih hrest
    · have ht0 : t0 = t :=
        tyLt_conn t0 t (by cases h : tyLt t0 t; rfl; exact absurd h h2)
          (by cases h : tyLt t t0; rfl; exact absurd h h1)
      simp only [lookupTy, if_pos ht0]

theorem lookupTy_insertTypes_other : ∀ (m : List (Ty × List String)) (t : Ty)
    (n : String) (t' : Ty), t' ≠ t →
    lookupTy (insertTypes m t n) t' = lookupTy m t' := by
  intro m t n t' ht'
  induction m with
  | nil =>
    show lookupTy [(t, [n])] t' = lookupTy [] t'
    rw [lookupTy_cons_ne t [n] [] t' (fun h => ht' h.symm)]
  | cons hd rest ih =>
    obtain ⟨t0, ns0⟩ := hd
    simp only [insertTypes]
    split_ifs with h1 h2
    · rw [lookupTy_cons_ne t [n] _ t' (fun h => ht' h.symm)]
    · by_cases h3 : t0 = t'
      · subst h3
        rw [lookupTy_cons_eq, lookupTy_cons_eq]
      · rw [lookupTy_cons_ne t0 ns0 _ t' h3, lookupTy_cons_ne t0 ns0 _ t' h3]
        exact ih
    · have ht0 : t0 = t :=
        tyLt_conn t0 t (by cases h : tyLt t0 t; rfl; exact absurd h h2)
          (by cases h : tyLt t t0; rfl; exact absurd h h1)
      subst ht0
      rw [lookupTy_cons_ne t0 (ns0 ++ [n]) _ t' (fun h => ht' h.symm),
        lookupTy_cons_ne t0 ns0 _ t' (fun h => ht' h.symm)]

theorem allNames_insertTypes : ∀ (m : List (Ty × List String)) (t : Ty)
    (n : String), (allNames (insertTypes m t n)).Perm (n :: allNames m) := by
  intro m t n
  induction m with
  | nil => simp [insertTypes, allNames]
  | cons hd rest ih =>
    obtain ⟨t0, ns0⟩ := hd
    simp only [insertTypes]
    split_ifs with h1 h2
    · simp [allNames]
    · rw [show allNames ((t0, ns0) :: insertTypes rest t n) =
          ns0 ++ allNames (insertTypes rest t n) from by simp [allNames],
        show allNames ((t0, ns0) :: rest) = ns0 ++ allNames rest from
          by simp [allNames]]
      exact (List.Perm.append_left ns0 ih).trans List.perm_middle
    · rw [show allNames ((t0, ns0 ++ [n]) :: rest) =
          ns0 ++ (n :: allNames rest) from by simp [allNames],
        show allNames ((t0, ns0) :: rest) = ns0 ++ allNames rest from
          by simp [allNames]]
      exact List.perm_middle

/-! ### Fold lemmas for the type-section construction -/

theorem collectImportTypes_sorted : ∀ (imports : List FunctionImport)
    (m tm' : List (Ty × List String)),
    collectImportTypes m imports = .ok tm' → SortedTM m → SortedTM tm' := by
  intro imports
  induction imports with
  | nil =>
    intro m tm' h hs
    have h2 : (Except.ok m : Except String (List (Ty × List String))) =
      .ok tm' := h
    injection h2 with h3
    rw [← h3]
    exact hs
  | cons imp rest ih =>
    intro m tm' h hs
    cases hti : typeOfImport imp with
    | error e => rw [collectImportTypes, hti] at h; exact absurd h (by simp)
    | ok t =>
      rw [collectImportTypes, hti] at h
      exact ih _ _ h (sortedTM_insertTypes m t imp.internalName hs)

theorem collectFunTypes_sorted : ∀ (fns : List FunctionDefinition)
    (m : List (Ty × List String)), SortedTM m →
    SortedTM (collectFunTypes m fns) := by
  intro fns
  induction fns with
  | nil => intro m hs; exact hs
  | cons f rest ih =>
    intro m hs
    rw [collectFunTypes]
    exact ih _ (sortedTM_insertTypes m (typeOfFun f) f.name hs)

theorem collectImportTypes_perm : ∀ (imports : List FunctionImport)
    (m tm' : List (Ty × List String)),
    collectImportTypes m imports = .ok tm' →
    (allNames tm').Perm (imports.map (·.internalName) ++ allNames m) := by
  intro imports
  induction imports with
  | nil =>
    intro m tm' h
    have h2 : (Except.ok m : Except String (List (Ty × List String))) =
      .ok tm' := h
    injection h2 with h3
    rw [← h3]
    simp
  | cons imp rest ih =>
    intro m tm' h
    cases hti : typeOfImport imp with
    | error e => rw [collectImportTypes, hti] at h; exact absurd h (by simp)
    | ok t =>
      rw [collectImportTypes, hti] at h
      have h1 := ih _ _ h
      have h2 := allNames_insertTypes m t imp.internalName
      refine (h1.trans ((List.Perm.append_left _ h2).trans ?_))
      simp only [List.map_cons, List.cons_append]
      exact List.perm_middle

theorem collectFunTypes_perm : ∀ (fns : List FunctionDefinition)
    (m : List (Ty × List String)),
    (allNames (collectFunTypes m fns)).Perm (fns.map (·.name) ++ allNames m) := by
  intro fns
  induction fns with
  | nil => intro m; simp [collectFunTypes]
  | cons f rest ih =>
    intro m
    rw [collectFunTypes]
    have h1 := ih (insertTypes m (typeOfFun f) f.name)
    have h2 := allNames_insertTypes m (typeOfFun f) f.name
    refine h1.trans ((List.Perm.append_left _ h2).trans ?_)
    simp only [List.map_cons, List.cons_append]
    exact List.perm_middle

theorem lookupTy_insert_mono (m : List (Ty × List String)) (t : Ty)
    (n : String) (t' : Ty) (n' : String) (hs : SortedTM m)
    (h : n ∈ lookupTy m t) : n ∈ lookupTy (insertTypes m t' n') t := by
  by_cases he : t = t'
  · subst he
    rw [lookupTy_insertTypes_same m t n' hs]
    exact List.mem_append_left _ h
  · rw [lookupTy_insertTypes_other m t' n' t he]
    exact h

theorem collectImportTypes_mono : ∀ (imports : List FunctionImport)
    (m tm' : List (Ty × List String)) (t : Ty) (n : String),
    collectImportTypes m imports = .ok tm' → SortedTM m →
    n ∈ lookupTy m t → n ∈ lookupTy tm' t := by
  intro imports
  induction imports with
  | nil =>
    intro m tm' t n h hs hn
    have h2 : (Except.ok m : Except String (List (Ty × List String))) =
      .ok tm' := h
    injection h2 with h3
    rw [← h3]
    exact hn
  | cons imp rest ih =>
    intro m tm' t n h hs hn
    cases hti : typeOfImport imp with
    | error e => rw [collectImportTypes, hti] at h; exact absurd h (by simp)
    | ok t0 =>
      rw [collectImportTypes, hti] at h
      exact ih _ _ t n h (sortedTM_insertTypes m t0 imp.internalName hs)
        (lookupTy_insert_mono m t n t0 imp.internalName hs hn)

theorem collectFunTypes_mono : ∀ (fns : List FunctionDefinition)
    (m : List (Ty × List String)) (t : Ty) (n : String), SortedTM m →
    n ∈ lookupTy m t → n ∈ lookupTy (collectFunTypes m fns) t := by
  intro fns
  induction fns with
  | nil => intro m t n _ hn; exact hn
  | cons f rest ih =>
    intro m t n hs hn
    rw [collectFunTypes]
    exact ih _ t n (sortedTM_insertTypes m (typeOfFun f) f.name hs)
      (lookupTy_insert_mono m t n (typeOfFun f) f.name hs hn)

theorem collectImportTypes_mem : ∀ (imports : List FunctionImport)
    (m tm' : List (Ty × List String)),
    collectImportTypes m imports = .ok tm' → SortedTM m →
    ∀ imp ∈ imports, ∃ t, typeOfImport imp = .ok t ∧
      imp.internalName ∈ lookupTy tm' t := by
  intro imports
  induction imports with
  | nil => intro m tm' _ _ imp hmem; exact absurd hmem (by simp)
  | cons imp0 rest ih =>
    intro m tm' h hs imp hmem
    cases hti : typeOfImport imp0 with
    | error e => rw [collectImportTypes, hti] at h; exact absurd h (by simp)
    | ok t0 =>
      rw [collectImportTypes, hti] at h
      rcases List.mem_cons.mp hmem with hh | hh
      · subst hh
        refine ⟨t0, hti, ?_⟩
        refine collectImportTypes_mono rest _ _ t0 imp.internalName h
          (sortedTM_insertTypes m t0 imp.internalName hs) ?_
        rw [lookupTy_insertTypes_same m t0 imp.internalName hs]
        exact List.mem_append_right _ (List.mem_singleton.mpr rfl)
      · exact ih _ _ h (sortedTM_insertTypes m t0 imp0.internalName hs) imp hh

theorem collectFunTypes_mem : ∀ (fns : List FunctionDefinition)
    (m : List (Ty × List String)), SortedTM m →
    ∀ f ∈ fns, f.name ∈ lookupTy (collectFunTypes m fns) (typeOfFun f) := by
  intro fns
  induction fns with
  | nil => intro m _ f hmem; exact absurd hmem (by simp)
  | cons f0 rest ih =>
    intro m hs f hmem
    rw [collectFunTypes]
    rcases List.mem_cons.mp hmem with hh | hh
    · subst hh
      refine collectFunTypes_mono rest _ (typeOfFun f) f.name
        (sortedTM_insertTypes m (typeOfFun f) f.name hs) ?_
      rw [lookupTy_insertTypes_same m (typeOfFun f) f.name hs]
      exact List.mem_append_right _ (List.mem_singleton.mpr rfl)
    · exact ih _ (sortedTM_insertTypes m (typeOfFun f0) f0.name hs) f hh

theorem keys_insertTypes_self : ∀ (m : List (Ty × List String)) (t : Ty)
    (n : String), t ∈ (insertTypes m t n).map Prod.fst := by
  intro m t n
  induction m with
  | nil => simp [insertTypes]
  | cons hd rest ih =>
    obtain ⟨t0, ns0⟩ := hd
    simp only [insertTypes]
    split_ifs with h1 h2
    · simp
    · simp only [List.map_cons, List.mem_cons]
      exact .inr ih
    · have ht0 : t0 = t :=
        tyLt_conn t0 t (by cases h : tyLt t0 t; rfl; exact absurd h h2)
          (by cases h : tyLt t t0; rfl; exact absurd h h1)
      simp [ht0]

theorem keys_insertTypes_super : ∀ (m : List (Ty × List String)) (t : Ty)
    (n : String) (t' : Ty), t' ∈ m.map Prod.fst →
    t' ∈ (insertTypes m t n).map Prod.fst := by
  intro m t n
  induction m with
  | nil => intro t' h; exact absurd h (by simp)
  | cons hd rest ih =>
    obtain ⟨t0, ns0⟩ := hd
    intro t' h
    simp only [List.map_cons, List.mem_cons] at h
    simp only [insertTypes]
    split_ifs with h1 h2
    · simp only [List.map_cons, List.mem_cons]
      rcases h with h | h
      · exact .inr (.inl h)
      · exact .inr (.inr h)
    · simp only [List.map_cons, List.mem_cons]
      rcases h with h | h
      · exact .inl h
      · exact .inr (ih t' h)
    · simp only [List.map_cons, List.mem_cons]
      exact h

theorem keys_collectFunTypes_iff : ∀ (fns : List FunctionDefinition)
    (m : List (Ty × List String)) (t : Ty),
    t ∈ (collectFunTypes m fns).map Prod.fst ↔
      t ∈ m.map Prod.fst ∨ ∃ f ∈ fns, typeOfFun f = t := by
  intro fns
  induction fns with
  | nil => intro m t; simp [collectFunTypes]
  | cons f0 rest ih =>
    intro m t
    rw [collectFunTypes, ih]
    constructor
    · rintro (h | h)
      · rcases List.mem_map.mp h with ⟨p, hp, he⟩
        rcases mem_insertTypes m (typeOfFun f0) f0.name p hp with h' | h'
        · exact .inl (he ▸ h')
        · exact .inr ⟨f0, List.mem_cons_self f0 rest, by rw [← he, h']⟩
      · obtain ⟨f, hf, he⟩ := h
        exact .inr ⟨f, List.mem_cons_of_mem f0 hf, he⟩
    · rintro (h | h)
      · exact .inl (keys_insertTypes_super m (typeOfFun f0) f0.name t h)
      · obtain ⟨f, hf, he⟩ := h
        rcases List.mem_cons.mp hf with hh | hh
        · subst hh
          exact .inl (he ▸ keys_insertTypes_self m (typeOfFun f) f.name)
        · exact .inr ⟨f, hh, he⟩

theorem keys_collectImportTypes_iff : ∀ (imports : List FunctionImport)
    (m tm' : List (Ty × List String)),
    collectImportTypes m imports = .ok tm' → ∀ t,
    (t ∈ tm'.map Prod.fst ↔
      t ∈ m.map Prod.fst ∨ ∃ imp ∈ imports, typeOfImport imp = .ok t) := by
  intro imports
  induction imports with
  | nil =>
    intro m tm' h t
    have h2 : (Except.ok m : Except String (List (Ty × List String))) =
      .ok tm' := h
    injection h2 with h3
    rw [← h3]
    simp
  | cons imp0 rest ih =>
    intro m tm' h t
    cases hti : typeOfImport imp0 with
    | error e => rw [collectImportTypes, hti] at h; exact absurd h (by simp)
    | ok t0 =>
      rw [collectImportTypes, hti] at h
      rw [ih _ _ h t]
      constructor
      · rintro (h' | h')
        · rcases List.mem_map.mp h' with ⟨p, hp, he⟩
          rcases mem_insertTypes m t0 imp0.internalName p hp with h'' | h''
          · exact .inl (he ▸ h'')
          · exact .inr ⟨imp0, List.mem_cons_self imp0 rest,
              by rw [hti, ← he, h'']⟩
        · obtain ⟨imp, hi, he⟩ := h'
          exact .inr ⟨imp, List.mem_cons_of_mem imp0 hi, he⟩
      · rintro (h' | h')
        · exact .inl (keys_insertTypes_super m t0 imp0.internalName t h')
        · obtain ⟨imp, hi, he⟩ := h'
          rcases List.mem_cons.mp hi with hh | hh
          · subst hh
            rw [hti] at he
            injection he with he'
            exact .inl (he' ▸ keys_insertTypes_self m t0 imp.internalName)
          · exact .inr ⟨imp, hh, he⟩

/-! ### `m_functionTypes` assignment: bucket index lookup -/

theorem lookupTy_mem_index : ∀ (tm : List (Ty × List String)) (t : Ty)
    (name : String), name ∈ lookupTy tm t →
    ∃ (i : Nat) (ns : List String), tm[i]? = some (t, ns) ∧ name ∈ ns := by
  intro tm
  induction tm with
  | nil => intro t name h; simp [lookupTy] at h
  | cons hd rest ih =>
    obtain ⟨t0, ns0⟩ := hd
    intro t name h
    by_cases he : t0 = t
    · subst he
      rw [lookupTy_cons_eq] at h
      exact ⟨0, ns0, by simp, h⟩
    · rw [lookupTy_cons_ne t0 ns0 rest t he] at h
      obtain ⟨i, ns, hg, hm⟩ := ih t name h
      exact ⟨i + 1, ns, by simpa using hg, hm⟩

theorem lookupA_foldl_insertA : ∀ (ns : List String) (i : Nat)
    (acc : List (String × Nat)) (k : String),
    lookupA (ns.foldl (fun acc n => insertA acc n i) acc) k =
      if k ∈ ns then some i else lookupA acc k := by
  intro ns
  induction ns with
  | nil => intro i acc k; simp
  | cons n rest ih =>
    intro i acc k
    rw [List.foldl_cons, ih]
    by_cases hk : k ∈ rest
    · rw [if_pos hk, if_pos (List.mem_cons_of_mem n hk)]
    · rw [if_neg hk, lookupA_insertA]
      by_cases hnk : n = k
      · rw [if_pos hnk, if_pos (by rw [← hnk]; exact List.mem_cons_self n rest)]
      · rw [if_neg hnk,
          if_neg (by simp only [List.mem_cons, not_or]; exact ⟨fun h => hnk h.symm, hk⟩)]

theorem lookupA_assignTypeIndices_not_mem : ∀ (tm : List (Ty × List String))
    (k : String) (s : Nat) (acc : List (String × Nat)),
    ¬ k ∈ allNames tm →
    lookupA (assignTypeIndices s tm acc) k = lookupA acc k := by
  intro tm
  induction tm with
  | nil => intro k s acc _; rfl
  | cons hd rest ih =>
    obtain ⟨t0, ns0⟩ := hd
    intro k s acc hk
    rw [show allNames ((t0, ns0) :: rest) = ns0 ++ allNames rest from
      by simp [allNames]] at hk
    simp only [List.mem_append, not_or] at hk
    rw [assignTypeIndices, ih k (s + 1) _ hk.2, lookupA_foldl_insertA,
      if_neg hk.1]

theorem lookupA_assignTypeIndices_mem : ∀ (tm : List (Ty × List String))
    (i : Nat) (t : Ty) (ns : List String) (k : String) (s : Nat)
    (acc : List (String × Nat)),
    tm[i]? = some (t, ns) → k ∈ ns → (allNames tm).Nodup →
    lookupA (assignTypeIndices s tm acc) k = some (s + i) := by
  intro tm
  induction tm with
  | nil => intro i t ns k s acc hg; simp at hg
  | cons hd rest ih =>
    obtain ⟨t0, ns0⟩ := hd
    intro i t ns k s acc hg hk hnd
    rw [show allNames ((t0, ns0) :: rest) = ns0 ++ allNames rest from
      by simp [allNames]] at hnd
    rcases List.nodup_append.mp hnd with ⟨hn0, hnr, hdisj⟩
    match i with
    | 0 =>
      simp only [List.getElem?_cons_zero] at hg
      injection hg with hg'
      have hns : ns = ns0 := (congrArg Prod.snd hg'.symm)
      rw [assignTypeIndices,
        lookupA_assignTypeIndices_not_mem rest k (s + 1) _
          (fun hmem => hdisj (hns ▸ hk) hmem),
        lookupA_foldl_insertA, if_pos (hns ▸ hk), Nat.add_zero]
    | i + 1 =>
      simp only [List.getElem?_cons_succ] at hg
      rw [assignTypeIndices, ih i t ns k (s + 1) _ hg hk hnr]
      congr 1
      omega

/-- The Function section uses exactly the `m_functionTypes` indices: when
every definition's name resolves, the per-definition index bytes are the
LEB128s of the looked-up indices. -/
theorem functionTypeIndices_ok : ∀ (fns : List FunctionDefinition)
    (ft : List (String × Nat)),
    (∀ f ∈ fns, ∃ i, lookupA ft f.name = some i) →
    functionTypeIndices ft fns =
      .ok ((fns.map (fun f => lebEncode ((lookupA ft f.name).getD 0))).flatten) := by
  intro fns
  induction fns with
  | nil => intro ft _; rfl
  | cons f rest ih =>
    intro ft hall
    obtain ⟨i, hi⟩ := hall f (List.mem_cons_self f rest)
    rw [functionTypeIndices, hi,
      ih ft (fun g hg => hall g (List.mem_cons_of_mem f hg))]
    simp [hi]

/-- C5: under the input contract that function names (imports and
definitions) are distinct, the Type section built by `typeSection` lists each
distinct signature exactly once, with strictly ascending keys in the
lexicographic comparator order (hence total, deterministic, and equal modules
yield equal sections); `m_functionTypes` maps every imported and defined name
to the index of its signature's entry; and the Import and Function sections
reference exactly those indices. -/
theorem typeSection_dedup_sorted (imports : List FunctionImport)
    (functions : List FunctionDefinition) (bytes : Bytes)
    (ft : List (String × Nat))
    (hnd : (imports.map (·.internalName) ++ functions.map (·.name)).Nodup)
    (h : typeSection imports functions = .ok (bytes, ft)) :
    ∃ (tm0 tm : List (Ty × List String)),
      collectImportTypes [] imports = .ok tm0 ∧
      tm = collectFunTypes tm0 functions ∧
      SortedTM tm ∧
      (tm.map Prod.fst).Nodup ∧
      (∀ t, t ∈ tm.map Prod.fst ↔
        ((∃ imp ∈ imports, typeOfImport imp = .ok t) ∨
         (∃ f ∈ functions, typeOfFun f = t))) ∧
      (∀ imp ∈ imports, ∃ t i, typeOfImport imp = .ok t ∧
        lookupA ft imp.internalName = some i ∧ (tm.map Prod.fst)[i]? = some t) ∧
      (∀ f ∈ functions, ∃ i, lookupA ft f.name = some i ∧
        (tm.map Prod.fst)[i]? = some (typeOfFun f)) ∧
      bytes = 0x01 :: prefixSize (lebEncode tm.length ++
        (tm.map (fun p => typeEntry p.1)).flatten) ∧
      ft = assignTypeIndices 0 tm [] ∧
      importSection ft imports = 0x02 :: prefixSize (lebEncode imports.length ++
        (imports.map (fun imp => encode imp.module ++ encode imp.externalName ++
          [0] ++ lebEncode ((lookupA ft imp.internalName).getD 0))).flatten) ∧
      functionSection ft functions = .ok (0x03 :: prefixSize
        (lebEncode functions.length ++
         (functions.map
           (fun f => lebEncode ((lookupA ft f.name).getD 0))).flatten)) := by
  rw [typeSection] at h
  cases hc : collectImportTypes [] imports with
  | error e => rw [hc] at h; exact absurd h (by simp)
  | ok tm0 =>
    rw [hc] at h
    have h2 : (Except.ok ((0x01 : Nat) ::
        prefixSize (lebEncode (collectFunTypes tm0 functions).length ++
          ((collectFunTypes tm0 functions).map
            (fun p => typeEntry p.1)).flatten),
        assignTypeIndices 0 (collectFunTypes tm0 functions) []) :
        Except String (Bytes × List (String × Nat))) = .ok (bytes, ft) := h
    injection h2 with h3
    have hbytes : bytes = 0x01 :: prefixSize
        (lebEncode (collectFunTypes tm0 functions).length ++
         ((collectFunTypes tm0 functions).map
           (fun p => typeEntry p.1)).flatten) := (congrArg Prod.fst h3).symm
    have hft : ft = assignTypeIndices 0 (collectFunTypes tm0 functions) [] :=
      (congrArg Prod.snd h3).symm
    set tm := collectFunTypes tm0 functions with htm
    have hs0 : SortedTM tm0 :=
      collectImportTypes_sorted imports [] tm0 hc (by simp [SortedTM])
    have hst : SortedTM tm := collectFunTypes_sorted functions tm0 hs0
    have hperm : (allNames tm).Perm
        (functions.map (·.name) ++ (imports.map (·.internalName))) := by
      have p1 := collectFunTypes_perm functions tm0
      have p2 := collectImportTypes_perm imports [] tm0 hc
      refine p1.trans (List.Perm.append_left _ (p2.trans ?_))
      simp [allNames]
    have hcomm : (imports.map (·.internalName) ++
        functions.map (·.name)).Perm
        (functions.map (·.name) ++ imports.map (·.internalName)) :=
      List.perm_append_comm
    have hndall : (allNames tm).Nodup :=
      hperm.nodup_iff.mpr (hcomm.nodup_iff.mp hnd)
    refine ⟨tm0, tm, rfl, htm, hst, ?_, ?_, ?_, ?_, hbytes, hft, rfl, ?_⟩
    · exact List.Pairwise.map Prod.fst
        (fun a b hlt => by
          intro he
          rw [he, tyLt_irrefl] at hlt
          exact absurd hlt (by simp))
        hst
    · intro t
      rw [htm, keys_collectFunTypes_iff functions tm0 t,
        keys_collectImportTypes_iff imports [] tm0 hc t]
      simp only [List.map_nil, List.not_mem_nil, false_or]
    · intro imp hmem
      obtain ⟨t, hti, hlk⟩ :=
        collectImportTypes_mem imports [] tm0 hc (by simp [SortedTM]) imp hmem
      have hlk2 : imp.internalName ∈ lookupTy tm t :=
        collectFunTypes_mono functions tm0 t imp.internalName hs0 hlk
      obtain ⟨i, ns, hg, hin⟩ := lookupTy_mem_index tm t imp.internalName hlk2
      refine ⟨t, i, hti, ?_, ?_⟩
      · rw [hft, lookupA_assignTypeIndices_mem tm i t ns imp.internalName 0 []
          hg hin hndall, Nat.zero_add]
      · rw [List.getElem?_map, hg]
        rfl
    · intro f hmem
      have hlk : f.name ∈ lookupTy tm (typeOfFun f) :=
        collectFunTypes_mem functions tm0 hs0 f hmem
      obtain ⟨i, ns, hg, hin⟩ := lookupTy_mem_index tm (typeOfFun f) f.name hlk
      refine ⟨i, ?_, ?_⟩
      · rw [hft, lookupA_assignTypeIndices_mem tm i (typeOfFun f) ns f.name 0 []
          hg hin hndall, Nat.zero_add]
      · rw [List.getElem?_map, hg]
        rfl
    · rw [functionSection, functionTypeIndices_ok functions ft ?hall]
      case hall =>
        intro f hf
        have hlk : f.name ∈ lookupTy tm (typeOfFun f) :=
          collectFunTypes_mem functions tm0 hs0 f hf
        obtain ⟨i, ns, hg, hin⟩ :=
          lookupTy_mem_index tm (typeOfFun f) f.name hlk
        exact ⟨i, by
          rw [hft, lookupA_assignTypeIndices_mem tm i (typeOfFun f) ns f.name
            0 [] hg hin hndall, Nat.zero_add]⟩

/-- Witness for C5: one import (`i32 → i64`) and two definitions (`main` and
a unary `f`); three distinct signatures; the hypotheses hold concretely and
the theorem applies. -/
theorem typeSection_dedup_sorted_witness :
    ∃ (tm0 tm : List (Ty × List String)),
      collectImportTypes []
        [⟨"ethereum", "storageStore", "eth.storageStore", ["i32"],
          some "i64"⟩] = .ok tm0 ∧
      tm = collectFunTypes tm0
        [⟨"main", [], [], false, []⟩, ⟨"f", ["x"], [], true, []⟩] ∧
      SortedTM tm ∧
      (tm.map Prod.fst).Nodup ∧
      (∀ t, t ∈ tm.map Prod.fst ↔
        ((∃ imp ∈ [(⟨"ethereum", "storageStore", "eth.storageStore", ["i32"],
            some "i64"⟩ : FunctionImport)], typeOfImport imp = .ok t) ∨
         (∃ f ∈ [(⟨"main", [], [], false, []⟩ : FunctionDefinition),
            ⟨"f", ["x"], [], true, []⟩], typeOfFun f = t))) ∧
      (∀ imp ∈ [(⟨"ethereum", "storageStore", "eth.storageStore", ["i32"],
          some "i64"⟩ : FunctionImport)], ∃ t i, typeOfImport imp = .ok t ∧
        lookupA (assignTypeIndices 0
          (collectFunTypes (match collectImportTypes []
            [⟨"ethereum", "storageStore", "eth.storageStore", ["i32"],
              some "i64"⟩] with
            | .ok x => x
            | .error _ => [])
          [⟨"main", [], [], false, []⟩, ⟨"f", ["x"], [], true, []⟩]) [])
          imp.internalName = some i ∧ (tm.map Prod.fst)[i]? = some t) ∧
      (∀ f ∈ [(⟨"main", [], [], false, []⟩ : FunctionDefinition),
          ⟨"f", ["x"], [], true, []⟩], ∃ i,
        lookupA (assignTypeIndices 0
          (collectFunTypes (match collectImportTypes []
            [⟨"ethereum", "storageStore", "eth.storageStore", ["i32"],
              some "i64"⟩] with
            | .ok x => x
            | .error _ => [])
          [⟨"main", [], [], false, []⟩, ⟨"f", ["x"], [], true, []⟩]) [])
          f.name = some i ∧
        (tm.map Prod.fst)[i]? = some (typeOfFun f)) ∧
      (match typeSection
          [⟨"ethereum", "storageStore", "eth.storageStore", ["i32"],
            some "i64"⟩]
          [⟨"main", [], [], false, []⟩, ⟨"f", ["x"], [], true, []⟩] with
        | .ok p => p.1
        | .error _ => []) = 0x01 :: prefixSize (lebEncode tm.length ++
        (tm.map (fun p => typeEntry p.1)).flatten) ∧
      (assignTypeIndices 0
        (collectFunTypes (match collectImportTypes []
          [⟨"ethereum", "storageStore", "eth.storageStore", ["i32"],
            some "i64"⟩] with
          | .ok x => x
          | .error _ => [])
        [⟨"main", [], [], false, []⟩, ⟨"f", ["x"], [], true, []⟩]) []) =
        assignTypeIndices 0 tm [] ∧
      importSection (assignTypeIndices 0
        (collectFunTypes (match collectImportTypes []
          [⟨"ethereum", "storageStore", "eth.storageStore", ["i32"],
            some "i64"⟩] with
          | .ok x => x
          | .error _ => [])
        [⟨"main", [], [], false, []⟩, ⟨"f", ["x"], [], true, []⟩]) [])
        [⟨"ethereum", "storageStore", "eth.storageStore", ["i32"],
          some "i64"⟩] = 0x02 :: prefixSize (lebEncode
          ([(⟨"ethereum", "storageStore", "eth.storageStore", ["i32"],
            some "i64"⟩ : FunctionImport)]).length ++
        (([(⟨"ethereum", "storageStore", "eth.storageStore", ["i32"],
            some "i64"⟩ : FunctionImport)]).map
          (fun imp => encode imp.module ++ encode imp.externalName ++
          [0] ++ lebEncode ((lookupA (assignTypeIndices 0
            (collectFunTypes (match collectImportTypes []
              [⟨"ethereum", "storageStore", "eth.storageStore", ["i32"],
                some "i64"⟩] with
              | .ok x => x
              | .error _ => [])
            [⟨"main", [], [], false, []⟩, ⟨"f", ["x"], [], true, []⟩]) [])
            imp.internalName).getD 0))).flatten) ∧
      functionSection (assignTypeIndices 0
        (collectFunTypes (match collectImportTypes []
          [⟨"ethereum", "storageStore", "eth.storageStore", ["i32"],
            some "i64"⟩] with
          | .ok x => x
          | .error _ => [])
        [⟨"main", [], [], false, []⟩, ⟨"f", ["x"], [], true, []⟩]) [])
        [⟨"main", [], [], false, []⟩, ⟨"f", ["x"], [], true, []⟩] =
        .ok (0x03 :: prefixSize
        (lebEncode ([(⟨"main", [], [], false, []⟩ : FunctionDefinition),
          ⟨"f", ["x"], [], true, []⟩]).length ++
         (([(⟨"main", [], [], false, []⟩ : FunctionDefinition),
            ⟨"f", ["x"], [], true, []⟩]).map
           (fun f => lebEncode ((lookupA (assignTypeIndices 0
            (collectFunTypes (match collectImportTypes []
              [⟨"ethereum", "storageStore", "eth.storageStore", ["i32"],
                some "i64"⟩] with
              | .ok x => x
              | .error _ => [])
            [⟨"main", [], [], false, []⟩, ⟨"f", ["x"], [], true, []⟩]) [])
            f.name).getD 0))).flatten)) :=
  typeSection_dedup_sorted
    [⟨"ethereum", "storageStore", "eth.storageStore", ["i32"], some "i64"⟩]
    [⟨"main", [], [], false, []⟩, ⟨"f", ["x"], [], true, []⟩]
    _ _ (by decide) rfl

end YulWasm
